import Mathlib

/-!
Verification of the subtitle/translation pipeline (`app/utils/time_converter.py`,
`app/backend/subtitle_handler.py`, `app/backend/translation_handler.py`,
`app/backend/video_processor.py`).

Strings are modelled as `List Char`; Python `int` is `Int` (arbitrary
precision); functions that raise `ValueError` return `Option`/`Except`.
Python-semantics helpers (`strip`, `split`, `int()` parsing, decimal
formatting) are defined once and shared by the translated definitions.
-/

namespace KRVid

/-! ### Python string helpers -/

/-- The ASCII whitespace characters recognised by Python `str.strip()` and the
regex class `\s` (our inputs are ASCII; the unicode extras never occur). -/
def pyIsSpace (c : Char) : Bool :=
  c = ' ' || c = '\t' || c = '\n' || c = '\r' || c = '\x0b' || c = '\x0c'

/-- Python `str.strip()`: drop leading and trailing whitespace. -/
def pyStrip (l : List Char) : List Char :=
  ((l.dropWhile pyIsSpace).reverse.dropWhile pyIsSpace).reverse

/-- Numeric value of a decimal digit character. -/
def digitVal (c : Char) : Nat := c.toNat - 48

/-- Value of a big-endian decimal digit string. -/
def digitsToNat (l : List Char) : Nat := l.foldl (fun a c => 10 * a + digitVal c) 0

/-- Decimal digits of `n`, most significant first (Python `str(n)` for
`n ≥ 0`).  The fuel (first argument) bounds the recursion depth; `n` itself
always suffices, and the fuel-0 base case is only reached for `n < 10`. -/
def natToDigitsAux : Nat → Nat → List Char
  | 0, n => [Nat.digitChar n]
  | fuel + 1, n =>
    if n < 10 then [Nat.digitChar n]
    else natToDigitsAux fuel (n / 10) ++ [Nat.digitChar (n % 10)]

def natToDigits (n : Nat) : List Char := natToDigitsAux n n

/-- Python `str(i)` for an `int`. -/
def intToDigits (i : Int) : List Char :=
  if i < 0 then '-' :: natToDigits (-i).toNat else natToDigits i.toNat

/-- Zero-pad a digit string on the left to width `w` (Python `%0wd` on `n ≥ 0`). -/
def zfill (w : Nat) (l : List Char) : List Char :=
  List.replicate (w - l.length) '0' ++ l

/-- Python `f"{n:02d}"` for `n ≥ 0`. -/
def pad2 (n : Nat) : List Char := zfill 2 (natToDigits n)

/-- Python `f"{n:03d}"` for `n ≥ 0`. -/
def pad3 (n : Nat) : List Char := zfill 3 (natToDigits n)

/-- Python `f"{i:02d}"` including the sign convention for negative input
(zero padding goes after the sign). -/
def intPad2 (i : Int) : List Char :=
  if i < 0 then '-' :: zfill 1 (natToDigits (-i).toNat) else pad2 i.toNat

/-- Python `f"{i:03d}"` including the sign convention for negative input. -/
def intPad3 (i : Int) : List Char :=
  if i < 0 then '-' :: zfill 2 (natToDigits (-i).toNat) else pad3 i.toNat

/-- Digit run acceptor for Python `int()`: digits in which a single `_`
may appear between two digits (`digitsUndOk` is called on the part after the
first character, which must itself be a digit). -/
def digitsUndOk : List Char → Bool
  | [] => true
  | '_' :: [] => false
  | '_' :: c :: cs => c.isDigit && digitsUndOk cs
  | c :: cs => c.isDigit && digitsUndOk cs

/-- Python `int(s)` on an unsigned body: nonempty, starts with a digit,
digits possibly separated by single underscores. -/
def pyIntNat (l : List Char) : Option Nat :=
  match l with
  | [] => none
  | c :: _ =>
    if c.isDigit && digitsUndOk l then some (digitsToNat (l.filter (fun d => d ≠ '_')))
    else none

/-- Python `int(s)`: optional surrounding whitespace, optional sign, decimal
digits (with underscore separators); `None` models `ValueError`. -/
def pyInt (l : List Char) : Option Int :=
  match pyStrip l with
  | '+' :: r => (pyIntNat r).map Int.ofNat
  | '-' :: r => (pyIntNat r).map (fun n => -(n : Int))
  | r => (pyIntNat r).map Int.ofNat

/-- Literal-prefix check: consume `pat` from the front or fail. -/
def chompPrefix : List Char → List Char → Option (List Char)
  | [], l => some l
  | _ :: _, [] => none
  | p :: ps, c :: cs => if c = p then chompPrefix ps cs else none

/-- Split `l` at the first occurrence of `sep` (Python `split(sep, 1)` when it
finds the separator); `none` when `sep` does not occur. -/
def splitFirst (sep : List Char) (l : List Char) : Option (List Char × List Char) :=
  match l with
  | [] => none
  | c :: cs =>
    match chompPrefix sep l with
    | some r => some ([], r)
    | none => (splitFirst sep cs).map (fun p => (c :: p.1, p.2))

/-- Python `s.split(ch)` (full split on a single-character separator). -/
def splitAllChar (ch : Char) (l : List Char) : List (List Char) :=
  match l with
  | [] => [[]]
  | c :: cs =>
    let r := splitAllChar ch cs
    if c = ch then [] :: r
    else match r with
         | [] => [[c]]
         | p :: ps => (c :: p) :: ps

/-! ### Time codec — `app/utils/time_converter.py` -/

/-- Error message of `time_to_ms` (the `ValueError` text). -/
def timeFormatErrMsg : List Char :=
  "시간 형식이 올바르지 않습니다. \x27MM:SS\x27 형식을 사용하세요.".toList

/-- Ordering error message of `validate_time_range`. -/
def orderErrMsg : List Char :=
  "종료 시간은 시작 시간보다 커야 합니다.".toList

/-- `time_to_ms`: parse `MM:SS` (regex `^(\d+):([0-5]?\d)$` on the stripped
input, blank input gives `0`); `Except` error carries the `ValueError` text.
The seconds group is one digit, or two digits whose first is `0`–`5`. -/
def time_to_ms (time_str : List Char) : Except (List Char) Int :=
  if pyStrip time_str = [] then .ok 0
  else
    let t := pyStrip time_str
    let minutes := t.takeWhile Char.isDigit
    let rest := t.dropWhile Char.isDigit
    if minutes = [] then .error timeFormatErrMsg
    else
      match rest with
      | ':' :: secs =>
        match secs with
        | [d] =>
          if d.isDigit then .ok (((digitsToNat minutes) * 60 + digitVal d) * 1000)
          else .error timeFormatErrMsg
        | [d1, d2] =>
          if ('0' ≤ d1 && d1 ≤ '5') && d2.isDigit then
            .ok (((digitsToNat minutes) * 60 + (digitVal d1 * 10 + digitVal d2)) * 1000)
          else .error timeFormatErrMsg
        | _ => .error timeFormatErrMsg
      | _ => .error timeFormatErrMsg

/-- `ms_to_time`: milliseconds to `MM:SS`, clamping negative input to `0`. -/
def ms_to_time (ms : Int) : List Char :=
  let n := ms.toNat
  pad2 (n / 1000 / 60) ++ ':' :: pad2 (n / 1000 % 60)

/-- `srt_time_to_ms`: parse `HH:MM:SS[,.]mmm`
(regex `^(\d{2}):(\d{2}):(\d{2})[,.](\d{3})$` on the stripped input);
`none` models the `ValueError`. -/
def srt_time_to_ms (srt_time : List Char) : Option Int :=
  match pyStrip srt_time with
  | [h1, h2, c1, m1, m2, c2, s1, s2, sep, d1, d2, d3] =>
    if h1.isDigit && h2.isDigit && c1 = ':' && m1.isDigit && m2.isDigit && c2 = ':'
        && s1.isDigit && s2.isDigit && (sep = ',' || sep = '.')
        && d1.isDigit && d2.isDigit && d3.isDigit then
      some (((digitVal h1 * 10 + digitVal h2) * 3600 * 1000 : Nat)
            + (digitVal m1 * 10 + digitVal m2) * 60 * 1000
            + (digitVal s1 * 10 + digitVal s2) * 1000
            + (digitVal d1 * 100 + digitVal d2 * 10 + digitVal d3) : Nat)
    else none
  | _ => none

/-- `ms_to_srt_time`: milliseconds to `HH:MM:SS,mmm`, clamping negative input
to `0`, zero-padding to 2/2/2/3 digits. -/
def ms_to_srt_time (ms : Int) : List Char :=
  let n := ms.toNat
  pad2 (n / (3600 * 1000)) ++ ':' :: (pad2 (n % (3600 * 1000) / (60 * 1000))
    ++ ':' :: (pad2 (n % (60 * 1000) / 1000) ++ ',' :: pad3 (n % 1000)))

/-- `validate_time_range`: both inputs blank means "no trim requested" and is
valid; otherwise parse the start (blank = 0) and the end (blank = +infinity,
modelled as `none`), and require `start < end`.  Returns the `(bool, message)`
pair of the source. -/
def validate_time_range (start_time end_time : List Char) : Bool × List Char :=
  if pyStrip start_time = [] ∧ pyStrip end_time = [] then (true, [])
  else
    match (if pyStrip start_time = [] then .ok 0 else time_to_ms start_time : Except (List Char) Int) with
    | .error e => (false, e)
    | .ok start_ms =>
      match (if pyStrip end_time = [] then .ok none else (time_to_ms end_time).map some :
          Except (List Char) (Option Int)) with
      | .error e => (false, e)
      | .ok none => (true, [])   -- end = +infinity: `start_ms >= inf` is false
      | .ok (some end_ms) =>
        if start_ms ≥ end_ms then (false, orderErrMsg) else (true, [])

/-! ### `format_srt_time` — `app/backend/translation_handler.py` -/

/-- `format_srt_time` of the translation module: repeated `divmod` (Python
floor division, hence `fdiv`/`fmod`), then `f"{hours:02d}:{minutes:02d}:{seconds:02d},{ms:03d}"`.
Unlike the time codec it does not clamp negative input. -/
def format_srt_time (ms : Int) : List Char :=
  let seconds := Int.fdiv ms 1000
  let msRest := Int.fmod ms 1000
  let minutes := Int.fdiv seconds 60
  let secRest := Int.fmod seconds 60
  let hours := Int.fdiv minutes 60
  let minRest := Int.fmod minutes 60
  intPad2 hours ++ ':' :: (intPad2 minRest ++ ':' :: (intPad2 secRest ++ ',' :: intPad3 msRest))

/-! ### Digit formatting lemmas -/

theorem digitChar_isDigit {d : Nat} (h : d < 10) : (Nat.digitChar d).isDigit = true := by
  interval_cases d <;> decide

theorem digitVal_digitChar {d : Nat} (h : d < 10) : digitVal (Nat.digitChar d) = d := by
  interval_cases d <;> decide

theorem digitChar_not_space {d : Nat} (h : d < 10) : pyIsSpace (Nat.digitChar d) = false := by
  interval_cases d <;> decide

theorem natToDigitsAux_small {fuel n : Nat} (h : n < 10) :
    natToDigitsAux fuel n = [Nat.digitChar n] := by
  cases fuel with
  | zero => rfl
  | succ f => simp [natToDigitsAux, h]

theorem natToDigitsAux_ge {fuel n : Nat} (hf : fuel ≠ 0) (h : ¬ n < 10) :
    natToDigitsAux fuel n = natToDigitsAux (fuel - 1) (n / 10) ++ [Nat.digitChar (n % 10)] := by
  cases fuel with
  | zero => exact absurd rfl hf
  | succ f => simp [natToDigitsAux, h]

theorem natToDigits_small {n : Nat} (h : n < 10) : natToDigits n = [Nat.digitChar n] :=
  natToDigitsAux_small h

theorem natToDigits_two {n : Nat} (h1 : 10 ≤ n) (h2 : n < 100) :
    natToDigits n = [Nat.digitChar (n / 10), Nat.digitChar (n % 10)] := by
  rw [natToDigits, natToDigitsAux_ge (by omega) (by omega),
    natToDigitsAux_small (show n / 10 < 10 by omega)]
  rfl

theorem natToDigits_three {n : Nat} (h1 : 100 ≤ n) (h2 : n < 1000) :
    natToDigits n =
      [Nat.digitChar (n / 100), Nat.digitChar (n / 10 % 10), Nat.digitChar (n % 10)] := by
  rw [natToDigits, natToDigitsAux_ge (by omega) (by omega),
    natToDigitsAux_ge (by omega) (by omega),
    natToDigitsAux_small (show n / 10 / 10 < 10 by omega)]
  have h4 : n / 10 / 10 = n / 100 := by omega
  rw [h4]
  rfl

theorem pad2_eq {n : Nat} (h : n < 100) :
    pad2 n = [Nat.digitChar (n / 10), Nat.digitChar (n % 10)] := by
  by_cases h10 : n < 10
  · have h1 : n / 10 = 0 := by omega
    have h2 : n % 10 = n := by omega
    simp [pad2, zfill, natToDigits_small h10, h1, h2, List.replicate]
    rfl
  · simp [pad2, zfill, natToDigits_two (by omega) h]

theorem pad3_eq {n : Nat} (h : n < 1000) :
    pad3 n = [Nat.digitChar (n / 100), Nat.digitChar (n / 10 % 10), Nat.digitChar (n % 10)] := by
  by_cases h10 : n < 10
  · have h1 : n / 100 = 0 := by omega
    have h2 : n / 10 % 10 = 0 := by omega
    have h3 : n % 10 = n := by omega
    simp [pad3, zfill, natToDigits_small h10, h1, h2, h3, List.replicate]
    rfl
  · by_cases h100 : n < 100
    · have h1 : n / 100 = 0 := by omega
      have h2 : n / 10 % 10 = n / 10 := by omega
      simp [pad3, zfill, natToDigits_two (by omega) h100, h1, h2, List.replicate]
      rfl
    · simp [pad3, zfill, natToDigits_three (by omega) h]

theorem dropWhile_eq_self_of_all {p : Char → Bool} :
    ∀ {l : List Char}, (∀ c ∈ l, p c = false) → l.dropWhile p = l
  | [], _ => rfl
  | c :: cs, h => by simp [List.dropWhile_cons, h c (by simp)]

theorem pyStrip_eq_self {l : List Char} (h : ∀ c ∈ l, pyIsSpace c = false) :
    pyStrip l = l := by
  unfold pyStrip
  rw [dropWhile_eq_self_of_all h, dropWhile_eq_self_of_all (by simpa using h),
    List.reverse_reverse]

/-! ### SRT timestamp round-trip -/

/-- The 12-character form of `ms_to_srt_time` for times below 100 hours. -/
theorem ms_to_srt_time_digits {n : Nat} (h : n < 360000000) :
    ms_to_srt_time (n : Int) =
      [Nat.digitChar (n / 3600000 / 10), Nat.digitChar (n / 3600000 % 10), ':',
       Nat.digitChar (n % 3600000 / 60000 / 10), Nat.digitChar (n % 3600000 / 60000 % 10), ':',
       Nat.digitChar (n % 60000 / 1000 / 10), Nat.digitChar (n % 60000 / 1000 % 10), ',',
       Nat.digitChar (n % 1000 / 100), Nat.digitChar (n % 1000 / 10 % 10),
       Nat.digitChar (n % 1000 % 10)] := by
  have e1 : pad2 (n / 3600000) =
      [Nat.digitChar (n / 3600000 / 10), Nat.digitChar (n / 3600000 % 10)] :=
    pad2_eq (by omega)
  have e2 : pad2 (n % 3600000 / 60000) =
      [Nat.digitChar (n % 3600000 / 60000 / 10), Nat.digitChar (n % 3600000 / 60000 % 10)] :=
    pad2_eq (by omega)
  have e3 : pad2 (n % 60000 / 1000) =
      [Nat.digitChar (n % 60000 / 1000 / 10), Nat.digitChar (n % 60000 / 1000 % 10)] :=
    pad2_eq (by omega)
  have e4 : pad3 (n % 1000) =
      [Nat.digitChar (n % 1000 / 100), Nat.digitChar (n % 1000 / 10 % 10),
       Nat.digitChar (n % 1000 % 10)] :=
    pad3_eq (by omega)
  simp only [ms_to_srt_time, Int.toNat_natCast]
  norm_num [e1, e2, e3, e4]

/-- Parsing an explicit 12-digit-character timestamp. -/
theorem srt_time_to_ms_digitChars {a b c d e f g h i : Nat}
    (ha : a < 10) (hb : b < 10) (hc : c < 10) (hd : d < 10) (he : e < 10)
    (hf : f < 10) (hg : g < 10) (hh : h < 10) (hi : i < 10) :
    srt_time_to_ms
      [Nat.digitChar a, Nat.digitChar b, ':', Nat.digitChar c, Nat.digitChar d, ':',
       Nat.digitChar e, Nat.digitChar f, ',', Nat.digitChar g, Nat.digitChar h,
       Nat.digitChar i] =
      some ((((a * 10 + b) * 3600 * 1000 : Nat)
            + (c * 10 + d) * 60 * 1000 + (e * 10 + f) * 1000
            + (g * 100 + h * 10 + i) : Nat) : Int) := by
  have hstrip : pyStrip
      [Nat.digitChar a, Nat.digitChar b, ':', Nat.digitChar c, Nat.digitChar d, ':',
       Nat.digitChar e, Nat.digitChar f, ',', Nat.digitChar g, Nat.digitChar h,
       Nat.digitChar i] =
      [Nat.digitChar a, Nat.digitChar b, ':', Nat.digitChar c, Nat.digitChar d, ':',
       Nat.digitChar e, Nat.digitChar f, ',', Nat.digitChar g, Nat.digitChar h,
       Nat.digitChar i] := by
    apply pyStrip_eq_self
    intro x hx
    simp only [List.mem_cons, List.not_mem_nil, or_false] at hx
    rcases hx with rfl | rfl | rfl | rfl | rfl | rfl | rfl | rfl | rfl | rfl | rfl | rfl
    · exact digitChar_not_space ha
    · exact digitChar_not_space hb
    · decide
    · exact digitChar_not_space hc
    · exact digitChar_not_space hd
    · decide
    · exact digitChar_not_space he
    · exact digitChar_not_space hf
    · decide
    · exact digitChar_not_space hg
    · exact digitChar_not_space hh
    · exact digitChar_not_space hi
  unfold srt_time_to_ms
  rw [hstrip]
  simp [digitChar_isDigit, ha, hb, hc, hd, he, hf, hg, hh, hi,
    digitVal_digitChar]

/-- Round trip over `Nat` milliseconds below 100 hours. -/
theorem srt_roundtrip_nat {n : Nat} (h : n < 360000000) :
    srt_time_to_ms (ms_to_srt_time (n : Int)) = some (n : Int) := by
  rw [ms_to_srt_time_digits h,
    srt_time_to_ms_digitChars (by omega) (by omega) (by omega) (by omega) (by omega)
      (by omega) (by omega) (by omega) (by omega)]
  push_cast
  congr 1
  omega

theorem intPad2_natCast (k : Nat) : intPad2 (k : Int) = pad2 k := by
  simp [intPad2]

theorem intPad3_natCast (k : Nat) : intPad3 (k : Int) = pad3 k := by
  simp [intPad3]

/-- C6: for every integer `ms` in `[0, 359999999]`, parsing the SRT timestamp
produced by `ms_to_srt_time` returns the original value:
`srt_time_to_ms (ms_to_srt_time ms) = ms`. -/
theorem C6_srt_timestamp_roundtrip (ms : Int) (h0 : 0 ≤ ms) (h1 : ms ≤ 359999999) :
    srt_time_to_ms (ms_to_srt_time ms) = some ms := by
  lift ms to ℕ using h0 with n
  have hn : n ≤ 359999999 := by exact_mod_cast h1
  exact srt_roundtrip_nat (by omega)

theorem C6_witness : srt_time_to_ms (ms_to_srt_time 3723456) = some 3723456 :=
  C6_srt_timestamp_roundtrip 3723456 (by norm_num) (by norm_num)

/-- C10: for every non-negative integer `ms`, the translation module's
`format_srt_time` and the time codec's `ms_to_srt_time` produce the same
string. -/
theorem C10_formatters_agree (ms : Int) (h : 0 ≤ ms) :
    format_srt_time ms = ms_to_srt_time ms := by
  lift ms to ℕ using h with n
  have hd1000 : ∀ a : Int, Int.fdiv a 1000 = a / 1000 := fun a => Int.fdiv_eq_ediv a (by norm_num)
  have hd60 : ∀ a : Int, Int.fdiv a 60 = a / 60 := fun a => Int.fdiv_eq_ediv a (by norm_num)
  have hm1000 : ∀ a : Int, Int.fmod a 1000 = a % 1000 := fun a => Int.fmod_eq_emod a (by norm_num)
  have hm60 : ∀ a : Int, Int.fmod a 60 = a % 60 := fun a => Int.fmod_eq_emod a (by norm_num)
  simp only [format_srt_time, hd1000, hd60, hm1000, hm60]
  have k1 : ((n : Int) / 1000 / 60 / 60) = ((n / (3600 * 1000) : Nat) : Int) := by omega
  have k2 : ((n : Int) / 1000 / 60 % 60) = ((n % (3600 * 1000) / (60 * 1000) : Nat) : Int) := by
    omega
  have k3 : ((n : Int) / 1000 % 60) = ((n % (60 * 1000) / 1000 : Nat) : Int) := by omega
  have k4 : ((n : Int) % 1000) = ((n % 1000 : Nat) : Int) := by omega
  rw [k1, k2, k3, k4, intPad2_natCast, intPad2_natCast, intPad2_natCast, intPad3_natCast]
  simp only [ms_to_srt_time, Int.toNat_natCast]

theorem C10_witness : format_srt_time 3723456 = ms_to_srt_time 3723456 :=
  C10_formatters_agree 3723456 (by norm_num)

/-- C7: `validate_time_range` is valid when both inputs are blank; otherwise it
parses each input (blank end = infinity, blank start = 0), returns the ordering
error whenever `start >= end` (e.g. `"05:00"`/`"01:00"`), and returns the
format error when either input is malformed (e.g. `"abc"`). -/
theorem C7_validate_time_range :
    (validate_time_range [] [] = (true, [])) ∧
    (validate_time_range "05:00".toList "01:00".toList = (false, orderErrMsg)) ∧
    (validate_time_range "abc".toList "01:00".toList = (false, timeFormatErrMsg)) ∧
    (∀ s e m, time_to_ms s = .error m → validate_time_range s e = (false, m)) ∧
    (∀ s e a m, time_to_ms s = .ok a → time_to_ms e = .error m →
      validate_time_range s e = (false, m)) ∧
    (∀ s e a b, pyStrip e ≠ [] → time_to_ms s = .ok a → time_to_ms e = .ok b →
      a ≥ b → validate_time_range s e = (false, orderErrMsg)) ∧
    (∀ s e a b, pyStrip e ≠ [] → time_to_ms s = .ok a → time_to_ms e = .ok b →
      a < b → validate_time_range s e = (true, [])) ∧
    (∀ s e a, pyStrip e = [] → time_to_ms s = .ok a →
      validate_time_range s e = (true, [])) := by
  have hblank : ∀ s, pyStrip s = [] → time_to_ms s = .ok 0 := by
    intro s hs; simp [time_to_ms, hs]
  have hnonblank : ∀ s m, time_to_ms s = .error m → pyStrip s ≠ [] := by
    intro s m hsm hs
    rw [hblank s hs] at hsm
    exact Except.noConfusion hsm
  refine ⟨by decide, by decide, by decide, ?_, ?_, ?_, ?_, ?_⟩
  · intro s e m hs
    have hns := hnonblank s m hs
    simp only [validate_time_range, hns, false_and, if_false, if_neg hns, hs]
  · intro s e a m hs he
    have hne := hnonblank e m he
    simp only [validate_time_range, hne, and_false, if_false, if_neg hne]
    by_cases hsb : pyStrip s = []
    · simp only [if_pos hsb, Except.map, he]
    · simp only [if_neg hsb, hs, Except.map, he]
  · intro s e a b hne hs he hab
    simp only [validate_time_range, hne, and_false, if_false, if_neg hne]
    by_cases hsb : pyStrip s = []
    · have : a = 0 := by
        have := hblank s hsb; rw [this] at hs; exact (Except.ok.injEq _ _ ▸ hs).symm ▸ rfl
      subst this
      simp only [if_pos hsb, Except.map, he, ge_iff_le, if_pos hab]
    · simp only [if_neg hsb, hs, Except.map, he, ge_iff_le, if_pos hab]
  · intro s e a b hne hs he hab
    simp only [validate_time_range, hne, and_false, if_false, if_neg hne]
    by_cases hsb : pyStrip s = []
    · have ha0 : a = 0 := by
        have := hblank s hsb; rw [this] at hs
        cases hs; rfl
      subst ha0
      simp only [if_pos hsb, Except.map, he]
      rw [if_neg (by omega)]
    · simp only [if_neg hsb, hs, Except.map, he]
      rw [if_neg (by omega)]
  · intro s e a heb hs
    by_cases hsb : pyStrip s = []
    · simp only [validate_time_range, hsb, heb, and_self, if_true]
    · simp only [validate_time_range, hsb, heb, false_and, if_false, if_neg hsb, hs]
      simp

theorem C7_witness : validate_time_range "07:00".toList "02:00".toList = (false, orderErrMsg) :=
  C7_validate_time_range.2.2.2.2.2.1 "07:00".toList "02:00".toList 420000 120000
    (by decide) (by rfl) (by rfl) (by norm_num)

/-! ### Data model — `app/schemas.py` -/

/-- `SubtitleSegment` (pydantic model): timed text unit with optional
translation. -/
structure SubtitleSegment where
  id : Int
  start_ms : Int
  end_ms : Int
  text : List Char
  translated_text : Option (List Char) := none
deriving DecidableEq, Repr

/-! ### SRT parser — `app/backend/subtitle_handler.py`, `parse_srt_file`

The source scans the file content with `re.finditer` over
`(\d+)\s*\n(\d{2}:\d{2}:\d{2}[,.]\d{3})\s*-->\s*(\d{2}:\d{2}:\d{2}[,.]\d{3})\s*\n([\s\S]*?)(?=\n\s*\n\s*\d+\s*\n|$)`.
We implement this pattern's matching semantics directly.  For the pieces
`\s*\n`, `\s*-->` and `\s*\d` the token after the whitespace run cannot itself
match whitespace, so greedy matching with backtracking is equivalent to:
consume the leading whitespace run up to the required terminator (for `\s*\n`,
up to the *last* newline of the run) and fail when it is absent. -/

/-- `\s*\n` when followed by a token that cannot match whitespace: consume the
leading whitespace run through its last `\n`; fail when the run has none. -/
def chompWsNewline : List Char → Option (List Char)
  | [] => none
  | c :: cs =>
    if pyIsSpace c then
      match chompWsNewline cs with
      | some r => some r
      | none => if c = '\n' then some cs else none
    else none

/-- The group `\d{2}:\d{2}:\d{2}[,.]\d{3}`: twelve characters of fixed shape;
returns the matched characters and the rest. -/
def matchTimestamp : List Char → Option (List Char × List Char)
  | h1 :: h2 :: c1 :: m1 :: m2 :: c2 :: s1 :: s2 :: sep :: d1 :: d2 :: d3 :: rest =>
    if h1.isDigit && h2.isDigit && c1 = ':' && m1.isDigit && m2.isDigit && c2 = ':'
        && s1.isDigit && s2.isDigit && (sep = ',' || sep = '.')
        && d1.isDigit && d2.isDigit && d3.isDigit then
      some ([h1, h2, c1, m1, m2, c2, s1, s2, sep, d1, d2, d3], rest)
    else none
  | _ => none

/-- The lookahead `(?=\n\s*\n\s*\d+\s*\n|$)`: its first alternative is a
blank-line separator followed by an index line; `$` (without `re.MULTILINE`)
matches at the end of the input or just before a final newline. -/
def blockBoundary (l : List Char) : Bool :=
  (match l with
   | c :: r =>
     decide (c = '\n') &&
       (match chompWsNewline r with
        | some r2 =>
          let r3 := r2.dropWhile pyIsSpace
          let ds := r3.takeWhile Char.isDigit
          let r4 := r3.dropWhile Char.isDigit
          decide (ds ≠ []) && (chompWsNewline r4).isSome
        | none => false)
   | [] => false)
  || decide (l = []) || decide (l = ['\n'])

/-- The lazy group `([\s\S]*?)` before the lookahead: the shortest prefix
whose remainder satisfies the boundary.  (`blockBoundary [] = true`, so the
`[]` fallback is unreachable.) -/
def lazyUntilBoundary (l : List Char) : List Char × List Char :=
  if blockBoundary l then ([], l)
  else match l with
       | [] => ([], [])
       | c :: cs =>
         let p := lazyUntilBoundary cs
         (c :: p.1, p.2)

/-- One block match of the pattern, anchored at the start of `l`: index digits,
`\s*\n`, timestamp, `\s*-->\s*`, timestamp, `\s*\n`, lazy text group up to the
lookahead.  Returns the four captured groups and the rest of the input after
the match (the lookahead consumes nothing). -/
structure RawBlock where
  idDigits : List Char
  ts1 : List Char
  ts2 : List Char
  text : List Char
deriving DecidableEq, Repr

def matchBlockAt (l : List Char) : Option (RawBlock × List Char) :=
  let ds := l.takeWhile Char.isDigit
  let r1 := l.dropWhile Char.isDigit
  if ds = [] then none
  else
    match chompWsNewline r1 with
    | none => none
    | some r2 =>
      match matchTimestamp r2 with
      | none => none
      | some (ts1, r3) =>
        match chompPrefix "-->".toList (r3.dropWhile pyIsSpace) with
        | none => none
        | some r4 =>
          match matchTimestamp (r4.dropWhile pyIsSpace) with
          | none => none
          | some (ts2, r5) =>
            match chompWsNewline r5 with
            | none => none
            | some r6 =>
              let p := lazyUntilBoundary r6
              some (⟨ds, ts1, ts2, p.1⟩, p.2)

/-- `re.finditer`: scan left to right, at each position try the pattern; on a
match, continue at the match's end.  Fuel bounds the recursion (the input
length always suffices: a match consumes at least one character). -/
def scanBlocks : Nat → List Char → List RawBlock
  | 0, _ => []
  | _ + 1, [] => []
  | fuel + 1, c :: cs =>
    match matchBlockAt (c :: cs) with
    | some (b, rest) => b :: scanBlocks fuel rest
    | none => scanBlocks fuel cs

/-- One matched block to a segment: `int` of the index group, the two
timestamps through `srt_time_to_ms`, and the text group stripped. -/
def blockToSegment (b : RawBlock) : Option SubtitleSegment :=
  match srt_time_to_ms b.ts1, srt_time_to_ms b.ts2 with
  | some s, some e =>
    some { id := (digitsToNat b.idDigits : Int), start_ms := s, end_ms := e,
           text := pyStrip b.text, translated_text := none }
  | _, _ => none

/-- `parse_srt_file` on the file content: every matched block is converted;
`srt_time_to_ms` raising (impossible for a matched group, proved below) and
any other exception turn into the function's `ValueError`, modelled by
`none`. -/
def parse_srt_file (content : List Char) : Option (List SubtitleSegment) :=
  (scanBlocks content.length content).mapM blockToSegment

/-! ### Serializer — `subtitle_handler.py`, `save_subtitles_to_file` -/

/-- The text selected for serialization:
`segment.translated_text if translated and segment.translated_text else segment.text`
(Python truthiness: an empty translation also falls back). -/
def chooseText (translated : Bool) (s : SubtitleSegment) : List Char :=
  match translated, s.translated_text with
  | true, some t => if t = [] then s.text else t
  | _, _ => s.text

/-- One SRT block: `f"{id}\n{start} --> {end}\n{text}\n\n"`. -/
def srtBlock (translated : Bool) (s : SubtitleSegment) : List Char :=
  intToDigits s.id ++ '\n' :: (ms_to_srt_time s.start_ms ++ " --> ".toList
    ++ ms_to_srt_time s.end_ms ++ '\n' :: (chooseText translated s ++ "\n\n".toList))

/-- `save_subtitles_to_file`, returning the file content: SRT blocks
concatenated, or `"{start_ms} - {end_ms} - {text}"` lines joined by `\n` for
any other format (the source treats everything but `"srt"` as txt). -/
def save_subtitles_to_file (segments : List SubtitleSegment) (file_format : List Char)
    (translated : Bool) : List Char :=
  if file_format.map Char.toLower = "srt".toList then
    (segments.map (srtBlock translated)).flatten
  else
    (segments.map fun s =>
      intToDigits s.start_ms ++ " - ".toList ++ intToDigits s.end_ms ++ " - ".toList
        ++ chooseText translated s).intersperse "\n".toList |>.flatten

/-! ### TXT parser — `subtitle_handler.py`, `parse_txt_file` -/

/-- `parse_txt_file` loop body over the file's lines: strip, skip blank lines,
`split(" - ", 2)` (fewer than 3 parts: skip), `int(...)` on the first two
parts (failure: skip); IDs are assigned sequentially from the running
counter. -/
def parseTxtGo : List (List Char) → Int → List SubtitleSegment
  | [], _ => []
  | line :: rest, nextId =>
    let l := pyStrip line
    if l = [] then parseTxtGo rest nextId
    else
      match splitFirst " - ".toList l with
      | none => parseTxtGo rest nextId
      | some (p0, r) =>
        match splitFirst " - ".toList r with
        | none => parseTxtGo rest nextId
        | some (p1, p2) =>
          match pyInt p0, pyInt p1 with
          | some s, some e =>
            { id := nextId, start_ms := s, end_ms := e, text := p2,
              translated_text := none } :: parseTxtGo rest (nextId + 1)
          | _, _ => parseTxtGo rest nextId

/-- `parse_txt_file` on the file's lines (the `readlines` result; trailing
newlines are removed by the per-line `strip` either way). -/
def parse_txt_file (lines : List (List Char)) : List SubtitleSegment :=
  parseTxtGo lines 1

/-! ### Translation stage — `app/backend/translation_handler.py`,
`translate_subtitles`

The external chat-completion call is abstracted as an oracle mapping the
global upstream-call counter to its outcome (`openai.APIError` or the stripped
response content).  The function's observable behaviour — upstream calls with
their numbered payload and `time.sleep` durations — is returned as an event
trace; the raised `ValueError` on retry exhaustion is the `none` result. -/

/-- Outcome of one upstream chat-completion call. -/
inductive ApiOutcome
  | ok (content : List Char)
  | err
deriving DecidableEq, Repr

/-- Observable events: an upstream call carrying the numbered payload lines of
its chunk, and a `time.sleep` of `n` seconds. -/
inductive TrEvent
  | call (payload : List (List Char))
  | sleepSec (n : Nat)
deriving DecidableEq, Repr

/-- The numbered payload lines `f"{segment.id}. {segment.text}"` of a chunk. -/
def buildPayload (chunk : List SubtitleSegment) : List (List Char) :=
  chunk.map fun s => intToDigits s.id ++ ". ".toList ++ s.text

/-- `chunks = [segments[i:i + chunk_size] for i in range(0, len(segments), chunk_size)]`
with `chunk_size = 10`.  Fuel-structural so evaluation is kernel-reducible;
the input length always suffices as fuel. -/
def chunkListAux : Nat → List SubtitleSegment → List (List SubtitleSegment)
  | 0, _ => []
  | fuel + 1, l =>
    if l = [] then [] else l.take 10 :: chunkListAux fuel (l.drop 10)

def chunkList (l : List SubtitleSegment) : List (List SubtitleSegment) :=
  chunkListAux l.length l

/-- Assign one parsed response line to the first chunk segment with the given
id (`for segment in chunk: if segment.id == segment_id: ...; break`). -/
def setFirstMatching : List SubtitleSegment → Int → List Char → List SubtitleSegment
  | [], _, _ => []
  | s :: rest, sid, content =>
    if s.id = sid then { s with translated_text := some content } :: rest
    else s :: setFirstMatching rest sid content

/-- Process one response line: strip, skip blank; `split(". ", 1)` must give 2
parts, else the line is skipped; `int(parts[0])` failure skips; otherwise the
matching segment's `translated_text` is set. -/
def applyLine (chunk : List SubtitleSegment) (line : List Char) : List SubtitleSegment :=
  let l := pyStrip line
  if l = [] then chunk
  else
    match splitFirst ". ".toList l with
    | none => chunk
    | some (p0, p1) =>
      match pyInt p0 with
      | none => chunk
      | some sid => setFirstMatching chunk sid p1

/-- The retry loop around one chunk (`while retry_count < max_retries`).
`remaining = max_retries - retry_count` (3 on entry); `callIdx` is the global
upstream-call counter.  Returns the events, the next call index, and the
updated chunk (`none` models the `ValueError` raised on the third failure).
On success the response content is stripped, split on newlines, and folded
into the chunk, and a 1-second pacing sleep follows unless this is the last
chunk. -/
def chunkLoop (oracle : Nat → ApiOutcome) (payload : List (List Char))
    (chunk : List SubtitleSegment) (isLast : Bool) :
    Nat → Nat → List TrEvent × Nat × Option (List SubtitleSegment)
  | 0, callIdx => ([], callIdx, none)
  | remaining + 1, callIdx =>
    match oracle callIdx with
    | .ok content =>
      let chunk' := ((splitAllChar '\n' (pyStrip content)).foldl applyLine chunk)
      (TrEvent.call payload :: (if isLast then [] else [TrEvent.sleepSec 1]),
        callIdx + 1, some chunk')
    | .err =>
      -- retry_count becomes 3 - remaining; on 3 the ValueError is raised,
      -- otherwise sleep 2 ^ retry_count
      if remaining = 0 then ([TrEvent.call payload], callIdx + 1, none)
      else
        match chunkLoop oracle payload chunk isLast remaining (callIdx + 1) with
        | (evs, ci, res) =>
          (TrEvent.call payload :: TrEvent.sleepSec (2 ^ (3 - remaining)) :: evs, ci, res)

/-- The `for i, chunk in enumerate(chunks)` loop: each chunk goes through the
retry loop; exhaustion aborts the whole operation; successful chunks are
accumulated (`translated_segments.extend(chunk)`). -/
def translateChunks (oracle : Nat → ApiOutcome) :
    List (List SubtitleSegment) → Nat → List TrEvent × Option (List SubtitleSegment)
  | [], _ => ([], some [])
  | chunk :: rest, callIdx =>
    match chunkLoop oracle (buildPayload chunk) chunk rest.isEmpty 3 callIdx with
    | (evs, _, none) => (evs, none)
    | (evs, ci, some chunk') =>
      match translateChunks oracle rest ci with
      | (evs2, res2) => (evs ++ evs2, res2.map fun segs => chunk' ++ segs)

/-- `translate_subtitles`: empty input returns immediately with no upstream
call; otherwise the chunked translation loop runs from call counter 0. -/
def translate_subtitles (oracle : Nat → ApiOutcome) (segments : List SubtitleSegment) :
    List TrEvent × Option (List SubtitleSegment) :=
  if segments = [] then ([], some [])
  else translateChunks oracle (chunkList segments) 0

/-- The sizes of the payloads of the upstream calls in a trace. -/
def callSizes (evs : List TrEvent) : List Nat :=
  evs.filterMap fun e =>
    match e with
    | .call p => some p.length
    | .sleepSec _ => none

/-! ### Chunking lemmas -/

theorem chunkListAux_fuel : ∀ fuel fuel' (l : List SubtitleSegment), l.length ≤ fuel →
    l.length ≤ fuel' → chunkListAux fuel l = chunkListAux fuel' l := by
  intro fuel
  induction fuel with
  | zero =>
    intro fuel' l h _
    have hl : l = [] := List.eq_nil_of_length_eq_zero (by omega)
    subst hl
    cases fuel' <;> simp [chunkListAux]
  | succ f ih =>
    intro fuel' l h h'
    cases fuel' with
    | zero =>
      have hl : l = [] := List.eq_nil_of_length_eq_zero (by omega)
      subst hl
      simp [chunkListAux]
    | succ f' =>
      by_cases hl : l = []
      · simp [chunkListAux, hl]
      · simp only [chunkListAux, hl, if_false]
        rw [ih f' (l.drop 10) (by simp; omega) (by simp; omega)]

theorem chunkList_cons {l : List SubtitleSegment} (h : l ≠ []) :
    chunkList l = l.take 10 :: chunkList (l.drop 10) := by
  have h1 : l.length ≠ 0 := fun hl => h (List.eq_nil_of_length_eq_zero hl)
  obtain ⟨f, hf⟩ : ∃ f, l.length = f + 1 := ⟨l.length - 1, by omega⟩
  rw [chunkList, hf]
  simp only [chunkListAux, h, if_false]
  rw [chunkList, chunkListAux_fuel f (l.drop 10).length (l.drop 10) (by simp; omega) le_rfl]

theorem chunkList_flatten (l : List SubtitleSegment) : (chunkList l).flatten = l := by
  by_cases h : l = []
  · subst h; rfl
  · rw [chunkList_cons h]
    simp only [List.flatten_cons, chunkList_flatten (l.drop 10), List.take_append_drop]
termination_by l.length
decreasing_by
  have : l.length ≠ 0 := fun hl => h (List.eq_nil_of_length_eq_zero hl)
  simp [List.length_drop]; omega

theorem chunkList_mem (l : List SubtitleSegment) :
    ∀ c ∈ chunkList l, c ≠ [] ∧ c.length ≤ 10 := by
  by_cases h : l = []
  · subst h; intro c hc; simp [chunkList, chunkListAux] at hc
  · rw [chunkList_cons h]
    simp only [List.mem_cons]
    rintro c (rfl | hc)
    · refine ⟨?_, by simp⟩
      simp only [ne_eq, List.take_eq_nil_iff]
      tauto
    · exact chunkList_mem (l.drop 10) c hc
termination_by l.length
decreasing_by
  have : l.length ≠ 0 := fun hl => h (List.eq_nil_of_length_eq_zero hl)
  simp [List.length_drop]; omega

theorem chunkList_single {l : List SubtitleSegment} (h1 : l ≠ []) (h2 : l.length ≤ 10) :
    chunkList l = [l] := by
  rw [chunkList_cons h1, List.take_of_length_le h2, List.drop_eq_nil_of_le h2]
  rfl

/-! ### C1 fixtures: 25 segments, responses missing id 7 -/

def mkSeg (i : Nat) : SubtitleSegment :=
  { id := (i : Int), start_ms := 0, end_ms := 0, text := ['a'] }

def segs25 : List SubtitleSegment := (List.range 25).map fun i => mkSeg (i + 1)

/-- A response echoing the given ids as `"<id>. tr"` lines. -/
def respLines (ids : List Nat) : List Char :=
  ((ids.map fun i => natToDigits i ++ ". tr".toList).intersperse "\n".toList).flatten

/-- Oracle answering the three chunk calls of `segs25`, the first response
missing id 7. -/
def oracle25 : Nat → ApiOutcome
  | 0 => .ok (respLines (((List.range 10).map (· + 1)).filter fun i => i ≠ 7))
  | 1 => .ok (respLines ((List.range 10).map (· + 11)))
  | _ => .ok (respLines ((List.range 5).map (· + 21)))

/-- The expected result: all of `segs25` translated except id 7. -/
def expected25 : List SubtitleSegment :=
  segs25.map fun s => if s.id = 7 then s else { s with translated_text := some "tr".toList }

/-- C1: `translate_subtitles` partitions the input into order-preserving
chunks of at most 10 (flattening the chunks gives back the input); on the
25-segment input it makes exactly 3 upstream calls with payload sizes
10, 10, 5, and with a response missing id 7 it returns the full list with
segment 7's `translated_text` unset and every other segment's set — no error
is raised. -/
theorem C1_translate_chunking :
    (∀ segs : List SubtitleSegment, (chunkList segs).flatten = segs) ∧
    (∀ segs : List SubtitleSegment, ∀ c ∈ chunkList segs, c ≠ [] ∧ c.length ≤ 10) ∧
    callSizes (translate_subtitles oracle25 segs25).1 = [10, 10, 5] ∧
    (translate_subtitles oracle25 segs25).2 = some expected25 := by
  refine ⟨chunkList_flatten, chunkList_mem, by decide, by decide⟩

theorem C1_witness : segs25.take 10 ≠ [] ∧ (segs25.take 10).length ≤ 10 :=
  C1_translate_chunking.2.1 segs25 (segs25.take 10) (by decide)

/-! ### C2: retry and backoff behaviour -/

theorem chunkLoop_ok {oracle : Nat → ApiOutcome} {callIdx : Nat} {content : List Char}
    (p : List (List Char)) (c : List SubtitleSegment) (il : Bool) (remaining : Nat)
    (h : oracle callIdx = .ok content) :
    chunkLoop oracle p c il (remaining + 1) callIdx =
      (TrEvent.call p :: (if il then [] else [TrEvent.sleepSec 1]), callIdx + 1,
        some ((splitAllChar '\n' (pyStrip content)).foldl applyLine c)) := by
  simp [chunkLoop, h]

theorem chunkLoop_err_last {oracle : Nat → ApiOutcome} {callIdx : Nat}
    (p : List (List Char)) (c : List SubtitleSegment) (il : Bool)
    (h : oracle callIdx = .err) :
    chunkLoop oracle p c il (0 + 1) callIdx = ([TrEvent.call p], callIdx + 1, none) := by
  simp [chunkLoop, h]

theorem chunkLoop_err_step {oracle : Nat → ApiOutcome} {callIdx : Nat}
    (p : List (List Char)) (c : List SubtitleSegment) (il : Bool) {remaining : Nat}
    (h : oracle callIdx = .err) (hr : remaining ≠ 0) :
    chunkLoop oracle p c il (remaining + 1) callIdx =
      (TrEvent.call p :: TrEvent.sleepSec (2 ^ (3 - remaining)) ::
          (chunkLoop oracle p c il remaining (callIdx + 1)).1,
        (chunkLoop oracle p c il remaining (callIdx + 1)).2.1,
        (chunkLoop oracle p c il remaining (callIdx + 1)).2.2) := by
  simp [chunkLoop, h, hr]

/-- C2: with the first two upstream calls failing transiently and the third
succeeding, a single-chunk translate makes exactly 3 upstream attempts with
backoff sleeps of 2 then 4 seconds and then processes the chunk normally;
with every call failing, translate makes exactly 3 attempts (sleeps 2 and 4),
raises the retries-exhausted error, and processes no further chunk. -/
theorem C2_retry_backoff :
    (∀ (segs : List SubtitleSegment) (content : List Char), segs ≠ [] → segs.length ≤ 10 →
      translate_subtitles (fun k => if k < 2 then .err else .ok content) segs =
        ([.call (buildPayload segs), .sleepSec 2, .call (buildPayload segs), .sleepSec 4,
          .call (buildPayload segs)],
         some ((splitAllChar '\n' (pyStrip content)).foldl applyLine segs))) ∧
    (∀ segs : List SubtitleSegment, segs ≠ [] →
      translate_subtitles (fun _ => .err) segs =
        ([.call (buildPayload (segs.take 10)), .sleepSec 2,
          .call (buildPayload (segs.take 10)), .sleepSec 4,
          .call (buildPayload (segs.take 10))], none)) := by
  constructor
  · intro segs content h1 h2
    rw [translate_subtitles, if_neg h1, chunkList_single h1 h2]
    simp [translateChunks, chunkLoop]
  · intro segs h1
    rw [translate_subtitles, if_neg h1, chunkList_cons h1]
    simp [translateChunks, chunkLoop]

theorem C2_witness :
    translate_subtitles (fun _ => .err) [mkSeg 1] =
      ([.call (buildPayload ([mkSeg 1].take 10)), .sleepSec 2,
        .call (buildPayload ([mkSeg 1].take 10)), .sleepSec 4,
        .call (buildPayload ([mkSeg 1].take 10))], none) :=
  C2_retry_backoff.2 [mkSeg 1] (by decide)

/-! ### C9: frame condition of translation -/

/-- All fields except `translated_text` agree. -/
def FramePreserved (a b : SubtitleSegment) : Prop :=
  b.id = a.id ∧ b.start_ms = a.start_ms ∧ b.end_ms = a.end_ms ∧ b.text = a.text

theorem framePreserved_refl : ∀ l : List SubtitleSegment, List.Forall₂ FramePreserved l l := by
  intro l
  induction l with
  | nil => exact List.Forall₂.nil
  | cons s rest ih => exact List.Forall₂.cons ⟨rfl, rfl, rfl, rfl⟩ ih

theorem framePreserved_trans {l1 l2 l3 : List SubtitleSegment}
    (h1 : List.Forall₂ FramePreserved l1 l2) (h2 : List.Forall₂ FramePreserved l2 l3) :
    List.Forall₂ FramePreserved l1 l3 := by
  induction h1 generalizing l3 with
  | nil => cases h2; exact List.Forall₂.nil
  | cons hab hrest ih =>
    cases h2 with
    | cons hbc hrest2 =>
      exact List.Forall₂.cons
        ⟨hbc.1.trans hab.1, hbc.2.1.trans hab.2.1, hbc.2.2.1.trans hab.2.2.1,
          hbc.2.2.2.trans hab.2.2.2⟩ (ih hrest2)

theorem setFirstMatching_frame (chunk : List SubtitleSegment) (sid : Int) (content : List Char) :
    List.Forall₂ FramePreserved chunk (setFirstMatching chunk sid content) := by
  induction chunk with
  | nil => exact List.Forall₂.nil
  | cons s rest ih =>
    rw [setFirstMatching]
    by_cases h : s.id = sid
    · rw [if_pos h]
      exact List.Forall₂.cons ⟨rfl, rfl, rfl, rfl⟩ (framePreserved_refl rest)
    · rw [if_neg h]
      exact List.Forall₂.cons ⟨rfl, rfl, rfl, rfl⟩ ih

theorem applyLine_frame (chunk : List SubtitleSegment) (line : List Char) :
    List.Forall₂ FramePreserved chunk (applyLine chunk line) := by
  rw [applyLine]
  by_cases h0 : pyStrip line = []
  · simp only [h0, if_pos rfl]
    exact framePreserved_refl chunk
  · simp only [h0, if_false]
    cases h1 : splitFirst ". ".toList (pyStrip line) with
    | none => exact framePreserved_refl chunk
    | some p =>
      obtain ⟨p0, p1⟩ := p
      show List.Forall₂ FramePreserved chunk
        (match pyInt p0 with
         | none => chunk
         | some sid => setFirstMatching chunk sid p1)
      cases h2 : pyInt p0 with
      | none => exact framePreserved_refl chunk
      | some sid => exact setFirstMatching_frame chunk sid p1

theorem foldl_applyLine_frame (lines : List (List Char)) :
    ∀ chunk : List SubtitleSegment,
      List.Forall₂ FramePreserved chunk (lines.foldl applyLine chunk) := by
  induction lines with
  | nil => exact fun chunk => framePreserved_refl chunk
  | cons line rest ih =>
    intro chunk
    rw [List.foldl_cons]
    exact framePreserved_trans (applyLine_frame chunk line) (ih (applyLine chunk line))

theorem chunkLoop_frame (oracle : Nat → ApiOutcome) (payload : List (List Char))
    (chunk : List SubtitleSegment) (isLast : Bool) :
    ∀ remaining callIdx evs ci chunk',
      chunkLoop oracle payload chunk isLast remaining callIdx = (evs, ci, some chunk') →
      List.Forall₂ FramePreserved chunk chunk' := by
  intro remaining
  induction remaining with
  | zero => intro callIdx evs ci chunk' h; simp [chunkLoop] at h
  | succ r ih =>
    intro callIdx evs ci chunk' h
    rw [chunkLoop] at h
    cases ho : oracle callIdx with
    | ok content =>
      rw [ho] at h
      simp only [Prod.mk.injEq, Option.some.injEq] at h
      obtain ⟨-, -, h3⟩ := h
      exact h3 ▸ foldl_applyLine_frame _ chunk
    | err =>
      rw [ho] at h
      by_cases hr : r = 0
      · subst hr
        rw [if_pos rfl] at h
        simp at h
      · rw [if_neg hr] at h
        rcases hm : chunkLoop oracle payload chunk isLast r (callIdx + 1) with ⟨evs0, ci0, res0⟩
        rw [hm] at h
        cases res0 with
        | none => simp at h
        | some c0 =>
          simp only [Prod.mk.injEq, Option.some.injEq] at h
          obtain ⟨-, -, h3⟩ := h
          exact h3 ▸ ih (callIdx + 1) evs0 ci0 c0 hm

theorem translateChunks_frame (oracle : Nat → ApiOutcome) :
    ∀ (chunks : List (List SubtitleSegment)) (callIdx : Nat) evs segs',
      translateChunks oracle chunks callIdx = (evs, some segs') →
      List.Forall₂ FramePreserved chunks.flatten segs' := by
  intro chunks
  induction chunks with
  | nil =>
    intro callIdx evs segs' h
    simp only [translateChunks, Prod.mk.injEq] at h
    cases h.2
    exact List.Forall₂.nil
  | cons chunk rest ih =>
    intro callIdx evs segs' h
    rw [translateChunks] at h
    rcases hm : chunkLoop oracle (buildPayload chunk) chunk rest.isEmpty 3 callIdx
      with ⟨evs0, ci0, res0⟩
    rw [hm] at h
    cases res0 with
    | none => simp at h
    | some chunk' =>
      have h' : (match translateChunks oracle rest ci0 with
          | (evs2, res2) => (evs0 ++ evs2, res2.map fun segs => chunk' ++ segs)) =
          (evs, some segs') := h
      rcases hm2 : translateChunks oracle rest ci0 with ⟨evs2, res2⟩
      rw [hm2] at h'
      cases res2 with
      | none => simp at h'
      | some s2 =>
        simp only [Prod.mk.injEq] at h'
        obtain ⟨-, h2⟩ := h'
        have h3 : chunk' ++ s2 = segs' := by simpa using h2
        rw [List.flatten_cons, ← h3]
        exact List.rel_append (chunkLoop_frame oracle _ chunk _ 3 callIdx evs0 ci0 chunk' hm)
          (ih ci0 evs2 s2 hm2)

/-- C9: whenever `translate_subtitles` returns successfully, the returned list
is the full input list in input order, with `id`, `start_ms`, `end_ms` and
`text` of every segment unchanged — only `translated_text` may differ. -/
theorem C9_translate_frame (oracle : Nat → ApiOutcome) (segs : List SubtitleSegment)
    (evs : List TrEvent) (segs' : List SubtitleSegment)
    (h : translate_subtitles oracle segs = (evs, some segs')) :
    List.Forall₂ FramePreserved segs segs' := by
  rw [translate_subtitles] at h
  by_cases h0 : segs = []
  · rw [if_pos h0] at h
    simp only [Prod.mk.injEq] at h
    cases h.2
    subst h0
    exact List.Forall₂.nil
  · rw [if_neg h0] at h
    have := translateChunks_frame oracle (chunkList segs) 0 evs segs' h
    rwa [chunkList_flatten] at this

theorem C9_witness :
    List.Forall₂ FramePreserved segs25 expected25 :=
  C9_translate_frame oracle25 segs25 (translate_subtitles oracle25 segs25).1 expected25
    (by decide)

/-! ### C8: the TXT line parser -/

/-- The per-line parse of the TXT format (no id assignment): the successful
lines of `parse_txt_file` are exactly those where this returns `some`. -/
def txtLineData (line : List Char) : Option (Int × Int × List Char) :=
  let l := pyStrip line
  if l = [] then none
  else
    match splitFirst " - ".toList l with
    | none => none
    | some (p0, r) =>
      match splitFirst " - ".toList r with
      | none => none
      | some (p1, p2) =>
        match pyInt p0, pyInt p1 with
        | some s, some e => some (s, e, p2)
        | _, _ => none

/-- Sequential id assignment starting at `n`. -/
def numberFrom (n : Int) : List (Int × Int × List Char) → List SubtitleSegment
  | [] => []
  | (s, e, t) :: r =>
    { id := n, start_ms := s, end_ms := e, text := t, translated_text := none }
      :: numberFrom (n + 1) r

theorem parseTxtGo_eq (lines : List (List Char)) :
    ∀ n, parseTxtGo lines n = numberFrom n (lines.filterMap txtLineData) := by
  induction lines with
  | nil => intro n; rfl
  | cons line rest ih =>
    intro n
    rw [parseTxtGo, List.filterMap_cons]
    by_cases h0 : pyStrip line = []
    · simp only [txtLineData, h0, if_pos rfl]
      exact ih n
    · cases h1 : splitFirst " - ".toList (pyStrip line) with
      | none =>
        simp only [txtLineData, if_neg h0, h1]
        exact ih n
      | some p =>
        obtain ⟨p0, r⟩ := p
        cases h2 : splitFirst " - ".toList r with
        | none =>
          simp only [txtLineData, if_neg h0, h1, h2]
          exact ih n
        | some q =>
          obtain ⟨p1, p2⟩ := q
          cases h3 : pyInt p0 with
          | none =>
            simp only [txtLineData, if_neg h0, h1, h2, h3]
            exact ih n
          | some s =>
            cases h4 : pyInt p1 with
            | none =>
              simp only [txtLineData, if_neg h0, h1, h2, h3, h4]
              exact ih n
            | some e =>
              simp only [txtLineData, if_neg h0, h1, h2, h3, h4, numberFrom]
              exact congrArg _ (ih (n + 1))

theorem numberFrom_ids (l : List (Int × Int × List Char)) :
    ∀ n, (numberFrom n l).map SubtitleSegment.id =
      (List.range l.length).map fun k : Nat => n + (k : Int) := by
  induction l with
  | nil => intro n; rfl
  | cons d r ih =>
    obtain ⟨s, e, t⟩ := d
    intro n
    rw [numberFrom, List.map_cons, List.length_cons, List.range_succ_eq_map, List.map_cons,
      List.map_map, ih (n + 1)]
    refine congrArg₂ _ (by simp) ?_
    refine List.map_congr_left fun k _ => ?_
    show n + 1 + (k : Int) = n + ((k + 1 : Nat) : Int)
    push_cast
    omega

theorem digit_not_space {c : Char} (h : c.isDigit = true) : pyIsSpace c = false := by
  by_cases h1 : c = ' '
  · subst h1; exact absurd h (by decide)
  · by_cases h2 : c = '\t'
    · subst h2; exact absurd h (by decide)
    · by_cases h3 : c = '\n'
      · subst h3; exact absurd h (by decide)
      · by_cases h4 : c = '\r'
        · subst h4; exact absurd h (by decide)
        · by_cases h5 : c = '\x0b'
          · subst h5; exact absurd h (by decide)
          · by_cases h6 : c = '\x0c'
            · subst h6; exact absurd h (by decide)
            · simp [pyIsSpace, h1, h2, h3, h4, h5, h6]

theorem digit_ne {c x : Char} (h : c.isDigit = true) (hx : x.isDigit = false) : c ≠ x := by
  intro he; subst he; rw [h] at hx; exact Bool.noConfusion hx

theorem digitsUndOk_all_digits : ∀ {l : List Char}, (∀ c ∈ l, c.isDigit = true) →
    digitsUndOk l = true := by
  intro l h
  induction l with
  | nil => rfl
  | cons c cs ih =>
    have hc : c.isDigit = true := h c (by simp)
    have hcs : ∀ x ∈ cs, x.isDigit = true := fun x hx => h x (by simp [hx])
    have hcne : c ≠ '_' := digit_ne hc (by decide)
    rw [digitsUndOk.eq_def]
    split
    · rfl
    · rename_i heq
      injection heq with h1 _
      exact absurd h1 hcne
    · rename_i heq
      injection heq with h1 _
      exact absurd h1 hcne
    · rename_i c2 cs2 heq
      injection heq with h1 h2
      subst h1; subst h2
      rw [Bool.and_eq_true]
      exact ⟨hc, ih hcs⟩

theorem pyInt_digits {a : List Char} (hne : a ≠ []) (h : ∀ c ∈ a, c.isDigit = true) :
    pyInt a = some ((digitsToNat a : Nat) : Int) := by
  have hstrip : pyStrip a = a := pyStrip_eq_self fun c hc => digit_not_space (h c hc)
  cases a with
  | nil => exact absurd rfl hne
  | cons c cs =>
    have hc : c.isDigit = true := h c (by simp)
    have hplus : c ≠ '+' := digit_ne hc (by decide)
    have hminus : c ≠ '-' := digit_ne hc (by decide)
    have hnat : pyIntNat (c :: cs) = some (digitsToNat (c :: cs)) := by
      have hfil : (c :: cs).filter (fun d => d ≠ '_') = c :: cs := by
        rw [List.filter_eq_self]
        intro x hx
        simpa using digit_ne (h x hx) (by decide)
      rw [pyIntNat,
        if_pos (show (c.isDigit && digitsUndOk (c :: cs)) = true by
          rw [Bool.and_eq_true]; exact ⟨hc, digitsUndOk_all_digits h⟩), hfil]
    rw [pyInt, hstrip]
    split
    · rename_i r heq
      injection heq with h1 _
      exact absurd h1 hplus
    · rename_i r heq
      injection heq with h1 _
      exact absurd h1 hminus
    · rw [hnat]
      rfl

theorem chompPrefix_append : ∀ p l : List Char, chompPrefix p (p ++ l) = some l := by
  intro p
  induction p with
  | nil => intro l; rfl
  | cons x ps ih => intro l; simp [chompPrefix, ih]

theorem chompPrefix_cons_ne {p c : Char} {ps cs : List Char} (h : c ≠ p) :
    chompPrefix (p :: ps) (c :: cs) = none := by
  simp [chompPrefix, h]

theorem splitFirst_dash (a rest : List Char) (ha : ∀ c ∈ a, c ≠ ' ') :
    splitFirst [' ', '-', ' '] (a ++ ' ' :: '-' :: ' ' :: rest) = some (a, rest) := by
  induction a with
  | nil =>
    rw [List.nil_append, splitFirst,
      show chompPrefix [' ', '-', ' '] (' ' :: '-' :: ' ' :: rest) =
        chompPrefix [' ', '-', ' '] ([' ', '-', ' '] ++ rest) from rfl,
      chompPrefix_append]
  | cons c a' ih =>
    have hc : c ≠ ' ' := ha c (by simp)
    rw [List.cons_append, splitFirst, chompPrefix_cons_ne hc,
      ih fun x hx => ha x (by simp [hx])]
    rfl

/-- C8: the plain line-format parser (a) skips — rather than aborts on — every
line that does not strip-split into 3 parts on `" - "` with integer first two
parts, assigning ids sequentially from 1 to the surviving lines (the parse is
exactly the per-line partial parse filtered, numbered from 1); (b) the ids are
`1, 2, 3, ...` in order; (c) a well-formed line parses with its full tail kept
as the text — the split is limited to 2 cuts, so `" - "` inside the text
survives (the witness exercises this). -/
theorem C8_parse_txt_file :
    (∀ lines, parse_txt_file lines = numberFrom 1 (lines.filterMap txtLineData)) ∧
    (∀ lines, (parse_txt_file lines).map SubtitleSegment.id =
      (List.range (lines.filterMap txtLineData).length).map fun k : Nat => 1 + (k : Int)) ∧
    (∀ a b t : List Char, a ≠ [] → b ≠ [] →
      (∀ c ∈ a, c.isDigit = true) → (∀ c ∈ b, c.isDigit = true) →
      pyStrip (a ++ " - ".toList ++ b ++ " - ".toList ++ t) =
        a ++ " - ".toList ++ b ++ " - ".toList ++ t →
      txtLineData (a ++ " - ".toList ++ b ++ " - ".toList ++ t) =
        some (((digitsToNat a : Nat) : Int), ((digitsToNat b : Nat) : Int), t)) := by
  refine ⟨fun lines => parseTxtGo_eq lines 1, ?_, ?_⟩
  · intro lines
    rw [parse_txt_file, parseTxtGo_eq lines 1, numberFrom_ids]
  · intro a b t ha hb hda hdb hline
    have hsep : " - ".toList = [' ', '-', ' '] := rfl
    have hnorm : a ++ " - ".toList ++ b ++ " - ".toList ++ t =
        a ++ ' ' :: '-' :: ' ' :: (b ++ ' ' :: '-' :: ' ' :: t) := by
      simp [hsep]
    have hanes : ∀ c ∈ a, c ≠ ' ' := fun c hc => digit_ne (hda c hc) (by decide)
    have hbnes : ∀ c ∈ b, c ≠ ' ' := fun c hc => digit_ne (hdb c hc) (by decide)
    have hlne : a ++ " - ".toList ++ b ++ " - ".toList ++ t ≠ [] := by
      cases a with
      | nil => exact absurd rfl ha
      | cons x xs => simp
    simp only [txtLineData, hline, if_neg hlne]
    simp only [hsep, List.append_assoc, List.cons_append, List.nil_append]
    simp only [splitFirst_dash a (b ++ ' ' :: '-' :: ' ' :: t) hanes,
      splitFirst_dash b t hbnes, pyInt_digits ha hda, pyInt_digits hb hdb]

theorem C8_witness :
    txtLineData ("17".toList ++ " - ".toList ++ "250".toList ++ " - ".toList
        ++ "a - b".toList) = some ((17 : Int), (250 : Int), "a - b".toList) := by
  have h := C8_parse_txt_file.2.2 "17".toList "250".toList "a - b".toList
    (by decide) (by decide) (by decide) (by decide) (by decide)
  simpa using h

/-! ### C4: output path of `combine_video` — `app/backend/video_processor.py` -/

/-- `pathlib.Path.stem` / `.suffix` for a plain file name: split at the last
dot, provided it is not the leading character (no suffix otherwise). -/
def pathSplitExt (name : List Char) : List Char × List Char :=
  let r := name.reverse
  let ext := r.takeWhile fun c => c ≠ '.'
  match r.dropWhile (fun c => c ≠ '.') with
  | '.' :: restAfter =>
    if restAfter = [] then (name, [])
    else (restAfter.reverse, '.' :: ext.reverse)
  | _ => (name, [])

/-- The output file name computed by `combine_video` (lines 150–154):
`file_id = video_path.stem.split("_")[-1]` and
`output_path = output_dir / f"result_{file_id}_{target_language}{video_path.suffix}"`.
Only the name is modelled; the directory and the ffmpeg invocations are I/O. -/
def combine_video_output_name (video_name target_language : List Char) : List Char :=
  let stem := (pathSplitExt video_name).1
  let suffix := (pathSplitExt video_name).2
  let file_id := (splitAllChar '_' stem).getLastD []
  "result_".toList ++ file_id ++ '_' :: target_language ++ suffix

theorem splitAllChar_ne_nil (ch : Char) (l : List Char) : splitAllChar ch l ≠ [] := by
  cases l with
  | nil => simp [splitAllChar]
  | cons c cs =>
    rw [splitAllChar]
    by_cases h : c = ch
    · simp [h]
    · simp only [h, if_false]
      cases splitAllChar ch cs <;> simp

theorem splitAllChar_length_two {ch : Char} {l : List Char} (h : ch ∈ l) :
    2 ≤ (splitAllChar ch l).length := by
  induction l with
  | nil => simp at h
  | cons c cs ih =>
    rw [splitAllChar]
    by_cases hc : c = ch
    · rw [if_pos hc]
      have := List.length_pos.mpr (splitAllChar_ne_nil ch cs)
      simp only [List.length_cons]
      omega
    · have hcs : ch ∈ cs := by
        rcases List.mem_cons.mp h with h1 | h1
        · exact absurd h1.symm hc
        · exact h1
      simp only [hc, if_false]
      rcases hsp : splitAllChar ch cs with _ | ⟨p, ps⟩
      · exact absurd hsp (splitAllChar_ne_nil ch cs)
      · have := ih hcs
        rw [hsp] at this
        simpa using this

theorem getLastD_irrel {ps : List (List Char)} (h : ps ≠ []) :
    ∀ d1 d2, ps.getLastD d1 = ps.getLastD d2 := by
  cases ps with
  | nil => exact absurd rfl h
  | cons q qs => intro d1 d2; rw [List.getLastD_cons, List.getLastD_cons]

theorem splitAllChar_last {ch : Char} (b : List Char) (hb : ch ∉ b) :
    ∀ (a : List Char) (d : List Char),
      (splitAllChar ch (a ++ ch :: b)).getLastD d = b := by
  intro a
  induction a with
  | nil =>
    intro d
    rw [List.nil_append, splitAllChar, if_pos rfl, List.getLastD_cons]
    have hsb : splitAllChar ch b = [b] := by
      clear d
      induction b with
      | nil => rfl
      | cons x xs ihx =>
        have hx : x ≠ ch := fun he => hb (by simp [he])
        rw [splitAllChar, if_neg hx, ihx fun he => hb (by simp [he])]
    rw [hsb, List.getLastD_cons]
    rfl
  | cons c a' ih =>
    intro d
    rw [List.cons_append, splitAllChar]
    by_cases hc : c = ch
    · rw [if_pos hc, List.getLastD_cons]
      exact ih []
    · rw [if_neg hc]
      rcases hsp : splitAllChar ch (a' ++ ch :: b) with _ | ⟨p, ps⟩
      · exact absurd hsp (splitAllChar_ne_nil _ _)
      · have hps : ps ≠ [] := by
          have h2 := splitAllChar_length_two (show ch ∈ a' ++ ch :: b by simp)
          rw [hsp] at h2
          simp only [List.length_cons] at h2
          intro he
          rw [he] at h2
          simp at h2
        rw [List.getLastD_cons]
        have h1 := ih d
        rw [hsp, List.getLastD_cons] at h1
        rw [getLastD_irrel hps (c :: p) p]
        exact h1

theorem takeWhile_append_stop {p : Char → Bool} {x : List Char} {b : Char} {y : List Char}
    (hx : ∀ c ∈ x, p c = true) (hb : p b = false) :
    (x ++ b :: y).takeWhile p = x ∧ (x ++ b :: y).dropWhile p = b :: y := by
  induction x with
  | nil => simp [List.takeWhile_cons, List.dropWhile_cons, hb]
  | cons c cs ih =>
    have hc : p c = true := hx c (by simp)
    have ihr := ih fun d hd => hx d (by simp [hd])
    simp [List.takeWhile_cons, List.dropWhile_cons, hc, ihr.1, ihr.2]

/-- The claim's expected path carries a gender tag; the code's does not.  At a
concrete female selection the produced name is `result_abc123_en.mp4`, not the
claimed `result_abc123_en_female.mp4`. -/
theorem C4_counterexample :
    combine_video_output_name "uploaded_abc123.mp4".toList "en".toList =
      "result_abc123_en.mp4".toList ∧
    "result_abc123_en.mp4".toList ≠ "result_abc123_en_female.mp4".toList := by
  constructor
  · decide
  · decide

/-- C4 (amended): for every asset id (no `_` or `.` in it) and target
language, the final video name produced by `combine_video` on the uploaded
asset `uploaded_<id>.mp4` is `result_<id>_<lang>.mp4` — deterministic in the
asset id and language code only; the gender tag of the claim appears only in
the UI download file name, never in the written artifact path. -/
theorem C4_combine_output_name (fid lang : List Char)
    (h1 : '_' ∉ fid) :
    combine_video_output_name ("uploaded_".toList ++ fid ++ ".mp4".toList) lang =
      "result_".toList ++ fid ++ '_' :: lang ++ ".mp4".toList := by
  have hsplit : pathSplitExt ("uploaded_".toList ++ fid ++ ".mp4".toList) =
      ("uploaded_".toList ++ fid, ".mp4".toList) := by
    rw [pathSplitExt]
    have hrev : ("uploaded_".toList ++ fid ++ ".mp4".toList).reverse =
        ['4', 'p', 'm'] ++ '.' :: ("uploaded_".toList ++ fid).reverse := by
      simp [List.reverse_append]
    have hall : ∀ c ∈ ['4', 'p', 'm'], (decide (c ≠ '.')) = true := by decide
    have hdot : (decide (('.' : Char) ≠ '.')) = false := by decide
    have htake := (takeWhile_append_stop hall hdot (y := ("uploaded_".toList ++ fid).reverse)).1
    have hdrop := (takeWhile_append_stop hall hdot (y := ("uploaded_".toList ++ fid).reverse)).2
    simp only [hrev, htake, hdrop]
    have hne : ("uploaded_".toList ++ fid).reverse ≠ [] := by simp
    rw [if_neg hne]
    simp
  rw [combine_video_output_name]
  simp only [hsplit]
  have hid : (splitAllChar '_' ("uploaded_".toList ++ fid)).getLastD [] = fid := by
    have : "uploaded_".toList ++ fid = "uploaded".toList ++ '_' :: fid := rfl
    rw [this, splitAllChar_last fid h1 "uploaded".toList []]
  rw [hid]

theorem C4_witness :
    combine_video_output_name ("uploaded_".toList ++ "vid77".toList ++ ".mp4".toList)
        "ja".toList =
      "result_".toList ++ "vid77".toList ++ '_' :: "ja".toList ++ ".mp4".toList :=
  C4_combine_output_name "vid77".toList "ja".toList (by decide)

/-! ### C3: the SRT parser never raises on malformed blocks — it skips them -/

theorem pyStrip_ts {h1 h2 m1 m2 s1 s2 sep d1 d2 d3 : Char}
    (g1 : h1.isDigit = true) (g2 : h2.isDigit = true) (g4 : m1.isDigit = true)
    (g5 : m2.isDigit = true) (g7 : s1.isDigit = true) (g8 : s2.isDigit = true)
    (g9 : sep = ',' ∨ sep = '.') (g10 : d1.isDigit = true) (g11 : d2.isDigit = true)
    (g12 : d3.isDigit = true) :
    pyStrip [h1, h2, ':', m1, m2, ':', s1, s2, sep, d1, d2, d3] =
      [h1, h2, ':', m1, m2, ':', s1, s2, sep, d1, d2, d3] := by
  apply pyStrip_eq_self
  intro x hx
  simp only [List.mem_cons, List.not_mem_nil, or_false] at hx
  rcases hx with rfl | rfl | rfl | rfl | rfl | rfl | rfl | rfl | rfl | rfl | rfl | rfl
  · exact digit_not_space g1
  · exact digit_not_space g2
  · decide
  · exact digit_not_space g4
  · exact digit_not_space g5
  · decide
  · exact digit_not_space g7
  · exact digit_not_space g8
  · rcases g9 with rfl | rfl <;> decide
  · exact digit_not_space g10
  · exact digit_not_space g11
  · exact digit_not_space g12

theorem matchTimestamp_parses {l ts rest : List Char}
    (h : matchTimestamp l = some (ts, rest)) : (srt_time_to_ms ts).isSome := by
  rw [matchTimestamp.eq_def] at h
  split at h
  · rename_i h1 h2 c1 m1 m2 c2 s1 s2 sep d1 d2 d3 rest'
    split at h
    · rename_i hguard
      injection h with h'
      injection h' with hts hrest
      subst hts
      simp only [Bool.and_eq_true, Bool.or_eq_true, decide_eq_true_eq, and_assoc] at hguard
      obtain ⟨g1, g2, g3, g4, g5, g6, g7, g8, g9, g10, g11, g12⟩ := hguard
      subst g3; subst g6
      rw [srt_time_to_ms, pyStrip_ts g1 g2 g4 g5 g7 g8 g9 g10 g11 g12]
      rcases g9 with rfl | rfl <;> simp [g1, g2, g4, g5, g7, g8, g10, g11, g12]
    · exact Option.noConfusion h
  · exact Option.noConfusion h

theorem matchBlockAt_ts {l : List Char} {b : RawBlock} {rest : List Char}
    (h : matchBlockAt l = some (b, rest)) :
    (srt_time_to_ms b.ts1).isSome ∧ (srt_time_to_ms b.ts2).isSome := by
  simp only [matchBlockAt] at h
  split at h
  · exact Option.noConfusion h
  · repeat' split at h
    all_goals
      first
      | exact Option.noConfusion h
      | (injection h with h'
         injection h' with hb hrest
         subst hb
         exact ⟨matchTimestamp_parses (by assumption), matchTimestamp_parses (by assumption)⟩)

theorem scanBlocks_ts : ∀ (fuel : Nat) (l : List Char), ∀ b ∈ scanBlocks fuel l,
    (srt_time_to_ms b.ts1).isSome ∧ (srt_time_to_ms b.ts2).isSome := by
  intro fuel
  induction fuel with
  | zero => intro l b hb; simp [scanBlocks] at hb
  | succ f ih =>
    intro l b hb
    cases l with
    | nil => simp [scanBlocks] at hb
    | cons c cs =>
      rw [scanBlocks] at hb
      cases hm : matchBlockAt (c :: cs) with
      | none => rw [hm] at hb; exact ih cs b hb
      | some p =>
        obtain ⟨b0, rest⟩ := p
        rw [hm] at hb
        rcases List.mem_cons.mp hb with rfl | hb2
        · exact matchBlockAt_ts hm
        · exact ih rest b hb2

theorem mapM_isSome {α β : Type} (f : α → Option β) :
    ∀ bs : List α, (∀ b ∈ bs, (f b).isSome) → (bs.mapM f).isSome := by
  intro bs
  induction bs with
  | nil => intro _; rfl
  | cons b rest ih =>
    intro h
    rw [List.mapM_cons]
    have hb := h b (by simp)
    cases hfb : f b with
    | none => rw [hfb] at hb; exact Bool.noConfusion hb
    | some x =>
      have hrest := ih fun y hy => h y (by simp [hy])
      cases hr : rest.mapM f with
      | none => rw [hr] at hrest; exact Bool.noConfusion hrest
      | some xs => simp [hfb, hr]

/-- C3 counterexample: on content whose first block has a malformed seconds
field (`00:00:0x,000`), `parse_srt_file` does not raise the claimed
malformed-subtitle error (the result is not the error value `none`): it
silently skips the bad block and returns exactly the remaining well-formed
segment. -/
theorem C3_counterexample :
    parse_srt_file
        "1\n00:00:00,000 --> 00:00:0x,000\nbad\n\n2\n00:00:01,000 --> 00:00:02,000\nok\n\n".toList ≠
      none ∧
    parse_srt_file
        "1\n00:00:00,000 --> 00:00:0x,000\nbad\n\n2\n00:00:01,000 --> 00:00:02,000\nok\n\n".toList =
      some [{ id := 2, start_ms := 1000, end_ms := 2000, text := "ok".toList,
              translated_text := none }] := by
  constructor
  · decide
  · decide

/-- C3 (amended): a block with malformed numeric fields is simply not matched
by the block regex and is silently skipped — `parse_srt_file` never raises
the malformed-subtitle error: it returns a segment list (`some`) for *every*
input, because every matched group is digit-shaped so neither `int()` nor
`srt_time_to_ms` can fail; on content with one malformed and one well-formed
block it returns exactly the remaining well-formed segment. -/
theorem C3_parse_srt_skips_malformed :
    (∀ content : List Char, ∃ segs, parse_srt_file content = some segs) ∧
    parse_srt_file
        "1\n00:00:00,000 --> 00:00:0x,000\nbad\n\n2\n00:00:01,000 --> 00:00:02,000\nok\n\n".toList =
      some [{ id := 2, start_ms := 1000, end_ms := 2000, text := "ok".toList,
              translated_text := none }] := by
  constructor
  · intro content
    have hsome : (parse_srt_file content).isSome := by
      rw [parse_srt_file]
      apply mapM_isSome
      intro b hb
      obtain ⟨h1, h2⟩ := scanBlocks_ts content.length content b hb
      cases hv1 : srt_time_to_ms b.ts1 with
      | none => rw [hv1] at h1; exact Bool.noConfusion h1
      | some v1 =>
        cases hv2 : srt_time_to_ms b.ts2 with
        | none => rw [hv2] at h2; exact Bool.noConfusion h2
        | some v2 => simp [blockToSegment, hv1, hv2]
    cases hp : parse_srt_file content with
    | none => rw [hp] at hsome; exact Bool.noConfusion hsome
    | some segs => exact ⟨segs, rfl⟩
  · decide

/-! ### C5: SRT serialize/parse round trip — decimal and strip lemmas -/

theorem digitsToNat_append (xs : List Char) (c : Char) :
    digitsToNat (xs ++ [c]) = 10 * digitsToNat xs + digitVal c := by
  rw [digitsToNat, digitsToNat, List.foldl_append, List.foldl_cons, List.foldl_nil]

theorem natToDigitsAux_inv : ∀ (fuel n : Nat), n < 10 ^ (fuel + 1) →
    digitsToNat (natToDigitsAux fuel n) = n := by
  intro fuel
  induction fuel with
  | zero =>
    intro n h
    rw [pow_one] at h
    rw [natToDigitsAux_small h, digitsToNat, List.foldl_cons, List.foldl_nil]
    simpa [digitVal] using digitVal_digitChar h
  | succ f ih =>
    intro n h
    by_cases h10 : n < 10
    · rw [natToDigitsAux_small h10, digitsToNat, List.foldl_cons, List.foldl_nil]
      simpa [digitVal] using digitVal_digitChar h10
    · rw [natToDigitsAux_ge (by omega) h10]
      simp only [Nat.add_sub_cancel]
      rw [digitsToNat_append, ih (n / 10) (by
        have : 10 ^ (f + 1 + 1) = 10 ^ (f + 1) * 10 := by ring
        rw [this] at h
        omega), digitVal_digitChar (by omega)]
      omega

theorem natToDigits_inv (n : Nat) : digitsToNat (natToDigits n) = n :=
  natToDigitsAux_inv n n (by
    calc n < 10 ^ n := Nat.lt_pow_self (by norm_num) n
    _ ≤ 10 ^ (n + 1) := Nat.pow_le_pow_right (by norm_num) (by omega))

theorem natToDigitsAux_all_digits : ∀ (fuel n : Nat), ∀ c ∈ natToDigitsAux fuel n,
    (n < 10 ^ (fuel + 1)) → c.isDigit = true := by
  intro fuel
  induction fuel with
  | zero =>
    intro n c hc h
    rw [pow_one] at h
    rw [natToDigitsAux_small h] at hc
    simp only [List.mem_cons, List.not_mem_nil, or_false] at hc
    subst hc
    exact digitChar_isDigit h
  | succ f ih =>
    intro n c hc h
    by_cases h10 : n < 10
    · rw [natToDigitsAux_small h10] at hc
      simp only [List.mem_cons, List.not_mem_nil, or_false] at hc
      subst hc
      exact digitChar_isDigit h10
    · rw [natToDigitsAux_ge (by omega) h10] at hc
      simp only [Nat.add_sub_cancel, List.mem_append, List.mem_cons, List.not_mem_nil,
        or_false] at hc
      rcases hc with hc | hc
      · refine ih (n / 10) c hc ?_
        have : 10 ^ (f + 1 + 1) = 10 ^ (f + 1) * 10 := by ring
        rw [this] at h
        omega
      · subst hc
        exact digitChar_isDigit (by omega)

theorem natToDigits_all_digits (n : Nat) : ∀ c ∈ natToDigits n, c.isDigit = true :=
  fun c hc => natToDigitsAux_all_digits n n c hc (by
    calc n < 10 ^ n := Nat.lt_pow_self (by norm_num) n
    _ ≤ 10 ^ (n + 1) := Nat.pow_le_pow_right (by norm_num) (by omega))

theorem natToDigitsAux_ne_nil (fuel n : Nat) : natToDigitsAux fuel n ≠ [] := by
  cases fuel with
  | zero => simp [natToDigitsAux]
  | succ f =>
    rw [natToDigitsAux]
    by_cases h : n < 10
    · simp [h]
    · simp [h]

theorem natToDigits_ne_nil (n : Nat) : natToDigits n ≠ [] := natToDigitsAux_ne_nil n n

theorem intToDigits_nonneg {i : Int} (h : 0 ≤ i) : intToDigits i = natToDigits i.toNat := by
  rw [intToDigits, if_neg (by omega)]

/-- `pyStrip t = t` forces the leading whitespace run to be empty. -/
theorem strip_stable_dropWhile {t : List Char} (hs : pyStrip t = t) :
    t.dropWhile pyIsSpace = t := by
  refine (List.dropWhile_sublist pyIsSpace).eq_of_length ?_
  have l1 : (pyStrip t).length ≤ (t.dropWhile pyIsSpace).length := by
    rw [pyStrip, List.length_reverse]
    calc ((t.dropWhile pyIsSpace).reverse.dropWhile pyIsSpace).length
        ≤ (t.dropWhile pyIsSpace).reverse.length :=
          (List.dropWhile_sublist pyIsSpace).length_le
      _ = (t.dropWhile pyIsSpace).length := List.length_reverse _
  have l2 : (t.dropWhile pyIsSpace).length ≤ t.length :=
    (List.dropWhile_sublist pyIsSpace).length_le
  rw [hs] at l1
  omega

/-- `pyStrip t = t` forces the trailing whitespace run to be empty. -/
theorem strip_stable_dropWhile_reverse {t : List Char} (hs : pyStrip t = t) :
    t.reverse.dropWhile pyIsSpace = t.reverse := by
  have h1 := strip_stable_dropWhile hs
  have h2 : pyStrip t = (t.reverse.dropWhile pyIsSpace).reverse := by
    rw [pyStrip, h1]
  refine (List.dropWhile_sublist pyIsSpace).eq_of_length ?_
  have : ((t.reverse.dropWhile pyIsSpace).reverse).length = t.length := by
    rw [← h2, hs]
  simp only [List.length_reverse] at this ⊢
  omega

theorem strip_stable_head {c : Char} {r : List Char} (hs : pyStrip (c :: r) = c :: r) :
    pyIsSpace c = false := by
  have h1 := strip_stable_dropWhile hs
  by_cases hc : pyIsSpace c = true
  · rw [List.dropWhile_cons, if_pos hc] at h1
    have hlen := congrArg List.length h1
    have hle := (List.dropWhile_sublist pyIsSpace (l := r)).length_le
    simp only [List.length_cons] at hlen
    omega
  · simpa using hc

/-- Appending a newline to a strip-stable nonempty text strips back to the
text. -/
theorem pyStrip_append_newline {t : List Char} (hne : t ≠ []) (hs : pyStrip t = t) :
    pyStrip (t ++ ['\n']) = t := by
  obtain ⟨c, r, rfl⟩ : ∃ c r, t = c :: r := by
    cases t with
    | nil => exact absurd rfl hne
    | cons c r => exact ⟨c, r, rfl⟩
  have hhead : pyIsSpace c = false := strip_stable_head hs
  have hrev := strip_stable_dropWhile_reverse hs
  rw [pyStrip]
  rw [show (c :: r) ++ ['\n'] = c :: (r ++ ['\n']) from rfl]
  rw [List.dropWhile_cons, if_neg (by simp [hhead])]
  rw [show (c :: (r ++ ['\n'])).reverse = '\n' :: (r.reverse ++ [c]) from by simp]
  rw [List.dropWhile_cons, if_pos (by decide)]
  rw [show r.reverse ++ [c] = (c :: r).reverse from by simp]
  rw [hrev]
  simp

theorem chooseText_false (s : SubtitleSegment) : chooseText false s = s.text := rfl

theorem chompWsNewline_cons {c : Char} {r : List Char} (hc : pyIsSpace c = false) :
    chompWsNewline ('\n' :: c :: r) = some (c :: r) := by
  rw [chompWsNewline, if_pos (by decide), chompWsNewline, hc]
  rfl

theorem dropWhile_space_digit {c : Char} {l : List Char} (hc : c.isDigit = true) :
    (c :: l).dropWhile pyIsSpace = c :: l := by
  rw [List.dropWhile_cons, if_neg (by simp [digit_not_space hc])]

theorem matchTimestamp_digitChars {a b c d e f g h i : Nat}
    (ha : a < 10) (hb : b < 10) (hc : c < 10) (hd : d < 10) (he : e < 10)
    (hf : f < 10) (hg : g < 10) (hh : h < 10) (hi : i < 10) (rest : List Char) :
    matchTimestamp
        ([Nat.digitChar a, Nat.digitChar b, ':', Nat.digitChar c, Nat.digitChar d, ':',
          Nat.digitChar e, Nat.digitChar f, ',', Nat.digitChar g, Nat.digitChar h,
          Nat.digitChar i] ++ rest) =
      some ([Nat.digitChar a, Nat.digitChar b, ':', Nat.digitChar c, Nat.digitChar d, ':',
             Nat.digitChar e, Nat.digitChar f, ',', Nat.digitChar g, Nat.digitChar h,
             Nat.digitChar i], rest) := by
  rw [List.cons_append, List.cons_append, List.cons_append, List.cons_append,
    List.cons_append, List.cons_append, List.cons_append, List.cons_append,
    List.cons_append, List.cons_append, List.cons_append, List.cons_append,
    List.nil_append, matchTimestamp]
  rw [if_pos]
  simp [digitChar_isDigit, ha, hb, hc, hd, he, hf, hg, hh, hi]

/-- The facts needed about a serialized in-range timestamp: it starts with a
digit, it is matched whole by the timestamp group, and it parses back. -/
theorem ms_to_srt_time_ok {ms : Int} (h0 : 0 ≤ ms) (h1 : ms < 360000000) :
    (∃ c cs, ms_to_srt_time ms = c :: cs ∧ c.isDigit = true) ∧
    (∀ rest, matchTimestamp (ms_to_srt_time ms ++ rest) = some (ms_to_srt_time ms, rest)) ∧
    srt_time_to_ms (ms_to_srt_time ms) = some ms := by
  have hrt : srt_time_to_ms (ms_to_srt_time ms) = some ms := by
    lift ms to ℕ using h0 with n
    exact srt_roundtrip_nat (by exact_mod_cast h1)
  refine ⟨?_, ?_, hrt⟩
  · lift ms to ℕ using h0 with n
    have hn : n < 360000000 := by exact_mod_cast h1
    rw [ms_to_srt_time_digits hn]
    exact ⟨_, _, rfl, digitChar_isDigit (by omega)⟩
  · intro rest
    lift ms to ℕ using h0 with n
    have hn : n < 360000000 := by exact_mod_cast h1
    rw [ms_to_srt_time_digits hn]
    exact matchTimestamp_digitChars (by omega) (by omega) (by omega) (by omega) (by omega)
      (by omega) (by omega) (by omega) (by omega) rest

theorem blockBoundary_cons_ne {c : Char} {r : List Char} (h : c ≠ '\n') :
    blockBoundary (c :: r) = false := by
  simp [blockBoundary, h]

theorem lazyUntilBoundary_append {t : List Char} (ht : ∀ c ∈ t, c ≠ '\n') :
    ∀ tail, lazyUntilBoundary (t ++ tail) =
      (t ++ (lazyUntilBoundary tail).1, (lazyUntilBoundary tail).2) := by
  induction t with
  | nil => intro tail; simp
  | cons c t' ih =>
    intro tail
    rw [List.cons_append, lazyUntilBoundary, blockBoundary_cons_ne (ht c (by simp))]
    simp only [Bool.false_eq_true, if_false]
    rw [ih (fun x hx => ht x (by simp [hx])) tail]
    simp

theorem lazyUntilBoundary_end : lazyUntilBoundary ['\n', '\n'] = (['\n'], ['\n']) := by decide

/-- The boundary lookahead succeeds at the blank-line separator before the
next serialized block. -/
theorem blockBoundary_nextBlock (s' : SubtitleSegment) (R : List Char) (hid : 1 ≤ s'.id)
    (h0 : 0 ≤ s'.start_ms) (h1 : s'.start_ms < 360000000) :
    blockBoundary ('\n' :: '\n' :: (srtBlock false s' ++ R)) = true := by
  have hD : intToDigits s'.id = natToDigits s'.id.toNat := intToDigits_nonneg (by omega)
  obtain ⟨d, ds, hds⟩ : ∃ d ds, natToDigits s'.id.toNat = d :: ds := by
    cases hh : natToDigits s'.id.toNat with
    | nil => exact absurd hh (natToDigits_ne_nil _)
    | cons d ds => exact ⟨d, ds, rfl⟩
  have hdd : d.isDigit = true := by
    have := natToDigits_all_digits s'.id.toNat d
    rw [hds] at this
    exact this (by simp)
  have hall : ∀ c ∈ natToDigits s'.id.toNat, Char.isDigit c = true :=
    natToDigits_all_digits s'.id.toNat
  obtain ⟨tc, tcs, hts, htc⟩ := (ms_to_srt_time_ok h0 h1).1
  have hblock : srtBlock false s' ++ R =
      natToDigits s'.id.toNat ++ '\n' ::
        (ms_to_srt_time s'.start_ms ++ (" --> ".toList ++ (ms_to_srt_time s'.end_ms ++
          '\n' :: (chooseText false s' ++ ("\n\n".toList ++ R))))) := by
    rw [srtBlock, hD]
    simp [List.append_assoc]
  have hchomp1 : chompWsNewline ('\n' :: (srtBlock false s' ++ R)) =
      some (srtBlock false s' ++ R) := by
    rw [hblock, hds, List.cons_append]
    exact chompWsNewline_cons (digit_not_space hdd)
  have hdropSp : (srtBlock false s' ++ R).dropWhile pyIsSpace = srtBlock false s' ++ R := by
    rw [hblock, hds, List.cons_append]
    exact dropWhile_space_digit hdd
  have htakedrop := takeWhile_append_stop (p := Char.isDigit)
    (x := natToDigits s'.id.toNat) (b := '\n')
    (y := ms_to_srt_time s'.start_ms ++ (" --> ".toList ++ (ms_to_srt_time s'.end_ms ++
      '\n' :: (chooseText false s' ++ ("\n\n".toList ++ R))))) hall (by decide)
  have htake : (srtBlock false s' ++ R).takeWhile Char.isDigit = natToDigits s'.id.toNat := by
    rw [hblock]; exact htakedrop.1
  have hdropD : (srtBlock false s' ++ R).dropWhile Char.isDigit =
      '\n' :: (ms_to_srt_time s'.start_ms ++ (" --> ".toList ++ (ms_to_srt_time s'.end_ms ++
        '\n' :: (chooseText false s' ++ ("\n\n".toList ++ R))))) := by
    rw [hblock]; exact htakedrop.2
  have hchomp2 : chompWsNewline
      ('\n' :: (ms_to_srt_time s'.start_ms ++ (" --> ".toList ++ (ms_to_srt_time s'.end_ms ++
        '\n' :: (chooseText false s' ++ ("\n\n".toList ++ R)))))) =
      some (ms_to_srt_time s'.start_ms ++ (" --> ".toList ++ (ms_to_srt_time s'.end_ms ++
        '\n' :: (chooseText false s' ++ ("\n\n".toList ++ R))))) := by
    rw [hts, List.cons_append]
    exact chompWsNewline_cons (digit_not_space htc)
  rw [blockBoundary]
  simp only [hchomp1, hdropSp, htake, hdropD, hchomp2]
  simp [natToDigits_ne_nil]

/-- A serialized block at the head of the input is matched by the block
pattern: the captured groups are the id digits, the two timestamps, and the
text extended by whatever the lazy group takes from the separator and the
continuation; the match ends where the lookahead held. -/
theorem matchBlockAt_srtBlock (s : SubtitleSegment) (T : List Char)
    (hid : 1 ≤ s.id)
    (hs0 : 0 ≤ s.start_ms) (hs1 : s.start_ms < 360000000)
    (he0 : 0 ≤ s.end_ms) (he1 : s.end_ms < 360000000)
    (htx1 : s.text ≠ []) (htx2 : ∀ c ∈ s.text, c ≠ '\n') (htx3 : pyStrip s.text = s.text) :
    matchBlockAt (srtBlock false s ++ T) =
      some (⟨intToDigits s.id, ms_to_srt_time s.start_ms, ms_to_srt_time s.end_ms,
             s.text ++ (lazyUntilBoundary ('\n' :: '\n' :: T)).1⟩,
            (lazyUntilBoundary ('\n' :: '\n' :: T)).2) := by
  have hD : intToDigits s.id = natToDigits s.id.toNat := intToDigits_nonneg (by omega)
  have hall : ∀ c ∈ natToDigits s.id.toNat, Char.isDigit c = true :=
    natToDigits_all_digits s.id.toNat
  obtain ⟨tc1, tc1s, hts1, htc1⟩ := (ms_to_srt_time_ok hs0 hs1).1
  obtain ⟨tc2, tc2s, hts2, htc2⟩ := (ms_to_srt_time_ok he0 he1).1
  obtain ⟨xc, xcs, hxc⟩ : ∃ xc xcs, s.text = xc :: xcs := by
    cases hh : s.text with
    | nil => exact absurd hh htx1
    | cons xc xcs => exact ⟨xc, xcs, rfl⟩
  have hxcn : pyIsSpace xc = false := strip_stable_head (hxc ▸ htx3)
  have hblockT : srtBlock false s ++ T =
      natToDigits s.id.toNat ++ '\n' ::
        (ms_to_srt_time s.start_ms ++ (' ' :: '-' :: '-' :: '>' :: ' ' ::
          (ms_to_srt_time s.end_ms ++ '\n' :: (s.text ++ '\n' :: '\n' :: T)))) := by
    rw [srtBlock, hD, chooseText_false]
    have hsep : " --> ".toList = [' ', '-', '-', '>', ' '] := rfl
    have hnl : "\n\n".toList = ['\n', '\n'] := rfl
    simp [hsep, hnl, List.append_assoc]
  have htakedrop := takeWhile_append_stop (p := Char.isDigit)
    (x := natToDigits s.id.toNat) (b := '\n')
    (y := ms_to_srt_time s.start_ms ++ (' ' :: '-' :: '-' :: '>' :: ' ' ::
      (ms_to_srt_time s.end_ms ++ '\n' :: (s.text ++ '\n' :: '\n' :: T)))) hall (by decide)
  have hch1 : chompWsNewline ('\n' ::
      (ms_to_srt_time s.start_ms ++ (' ' :: '-' :: '-' :: '>' :: ' ' ::
        (ms_to_srt_time s.end_ms ++ '\n' :: (s.text ++ '\n' :: '\n' :: T))))) =
      some (ms_to_srt_time s.start_ms ++ (' ' :: '-' :: '-' :: '>' :: ' ' ::
        (ms_to_srt_time s.end_ms ++ '\n' :: (s.text ++ '\n' :: '\n' :: T)))) := by
    rw [hts1, List.cons_append]
    exact chompWsNewline_cons (digit_not_space htc1)
  have hmt1 := (ms_to_srt_time_ok hs0 hs1).2.1 (' ' :: '-' :: '-' :: '>' :: ' ' ::
    (ms_to_srt_time s.end_ms ++ '\n' :: (s.text ++ '\n' :: '\n' :: T)))
  have hdropSep : ∀ X : List Char,
      (' ' :: '-' :: '-' :: '>' :: ' ' :: X).dropWhile pyIsSpace =
        '-' :: '-' :: '>' :: ' ' :: X := by
    intro X
    rw [List.dropWhile_cons, if_pos (by decide), List.dropWhile_cons, if_neg (by decide)]
  have hchp : ∀ X : List Char,
      chompPrefix "-->".toList ('-' :: '-' :: '>' :: ' ' :: X) = some (' ' :: X) := by
    intro X
    rfl
  have hdrop2 : List.dropWhile pyIsSpace
      (' ' :: (ms_to_srt_time s.end_ms ++ '\n' :: (s.text ++ '\n' :: '\n' :: T))) =
        ms_to_srt_time s.end_ms ++ '\n' :: (s.text ++ '\n' :: '\n' :: T) := by
    rw [List.dropWhile_cons, if_pos (by decide), hts2, List.cons_append,
      dropWhile_space_digit htc2]
  have hmt2 := (ms_to_srt_time_ok he0 he1).2.1 ('\n' :: (s.text ++ '\n' :: '\n' :: T))
  have hch2 : chompWsNewline ('\n' :: (s.text ++ '\n' :: '\n' :: T)) =
      some (s.text ++ '\n' :: '\n' :: T) := by
    rw [hxc, List.cons_append]
    exact chompWsNewline_cons hxcn
  have hlazy := lazyUntilBoundary_append htx2 ('\n' :: '\n' :: T)
  rw [hblockT, matchBlockAt]
  simp only [htakedrop.1, htakedrop.2, hch1, hmt1, hdropSep, hchp, hdrop2, hmt2, hch2]
  rw [show s.text ++ ('\n' :: '\n' :: T) = s.text ++ '\n' :: '\n' :: T from rfl] at hlazy
  simp only [hlazy]
  rw [if_neg (natToDigits_ne_nil s.id.toNat)]
  rw [hD]

theorem matchBlockAt_nondigit {c : Char} {cs : List Char} (hc : c.isDigit = false) :
    matchBlockAt (c :: cs) = none := by
  rw [matchBlockAt]
  simp [List.takeWhile_cons, hc]

theorem scanBlocks_nil (fuel : Nat) : scanBlocks fuel [] = [] := by
  cases fuel <;> rfl

theorem scanBlocks_cons_matched {fuel : Nat} {l : List Char} {b : RawBlock} {rest : List Char}
    (hl : l ≠ []) (hm : matchBlockAt l = some (b, rest)) :
    scanBlocks (fuel + 1) l = b :: scanBlocks fuel rest := by
  cases l with
  | nil => exact absurd rfl hl
  | cons c cs => rw [scanBlocks, hm]

theorem scanBlocks_cons_skip {fuel : Nat} {c : Char} {cs : List Char}
    (hm : matchBlockAt (c :: cs) = none) :
    scanBlocks (fuel + 1) (c :: cs) = scanBlocks fuel cs := by
  rw [scanBlocks, hm]

theorem srtBlock_length (s : SubtitleSegment) : 3 ≤ (srtBlock false s).length := by
  rw [srtBlock]
  simp [List.length_append]
  omega

/-- The per-segment hypotheses of the round trip: positive id, times within
100 hours, text nonempty, newline-free and strip-stable. -/
@[reducible] def SegOK (s : SubtitleSegment) : Prop :=
  1 ≤ s.id ∧ 0 ≤ s.start_ms ∧ s.start_ms < 360000000 ∧ 0 ≤ s.end_ms ∧
    s.end_ms < 360000000 ∧ s.text ≠ [] ∧ (∀ c ∈ s.text, c ≠ '\n') ∧ pyStrip s.text = s.text

theorem digitsToNat_intToDigits {i : Int} (h : 0 ≤ i) :
    ((digitsToNat (intToDigits i) : Nat) : Int) = i := by
  rw [intToDigits_nonneg h, natToDigits_inv]
  omega

/-- Scanning and converting the concatenated serialized blocks recovers the
segments (with `translated_text` cleared). -/
theorem scan_parse_blocks : ∀ (segs : List SubtitleSegment), (∀ s ∈ segs, SegOK s) →
    ∀ fuel, ((segs.map (srtBlock false)).flatten).length ≤ fuel →
    (scanBlocks fuel ((segs.map (srtBlock false)).flatten)).mapM blockToSegment =
      some (segs.map fun s => { s with translated_text := none }) := by
  intro segs
  induction segs with
  | nil =>
    intro _ fuel _
    rw [List.map_nil, List.flatten_nil, scanBlocks_nil]
    rfl
  | cons s rest ih =>
    intro hok fuel hfuel
    obtain ⟨h1, h2, h3, h4, h5, h6, h7, h8⟩ := hok s (by simp)
    have hrest : ∀ x ∈ rest, SegOK x := fun x hx => hok x (by simp [hx])
    have hlenB := srtBlock_length s
    rw [List.map_cons, List.flatten_cons] at hfuel ⊢
    have hmatch := matchBlockAt_srtBlock s ((rest.map (srtBlock false)).flatten)
      h1 h2 h3 h4 h5 h6 h7 h8
    have hBne : srtBlock false s ++ (rest.map (srtBlock false)).flatten ≠ [] := by
      intro hcon
      have := congrArg List.length hcon
      simp only [List.length_append, List.length_nil] at this
      omega
    have hid12 := (ms_to_srt_time_ok h2 h3).2.2
    have hid34 := (ms_to_srt_time_ok h4 h5).2.2
    cases rest with
    | nil =>
      simp only [List.map_nil, List.flatten_nil, List.append_nil] at hfuel hmatch hBne ⊢
      rw [lazyUntilBoundary_end] at hmatch
      obtain ⟨f, rfl⟩ : ∃ f, fuel = f + 2 := ⟨fuel - 2, by omega⟩
      rw [show f + 2 = (f + 1) + 1 from rfl,
        scanBlocks_cons_matched hBne hmatch,
        scanBlocks_cons_skip (matchBlockAt_nondigit (by decide)), scanBlocks_nil]
      rw [List.mapM_cons, List.mapM_nil, blockToSegment]
      simp only [hid12, hid34]
      rw [pyStrip_append_newline h6 h8]
      simp only [digitsToNat_intToDigits (by omega : (0:Int) ≤ s.id)]
      rfl
    | cons s2 rest' =>
      obtain ⟨g1, g2, g3, _⟩ := hrest s2 (by simp)
      have hFL : (List.map (srtBlock false) (s2 :: rest')).flatten =
          srtBlock false s2 ++ (rest'.map (srtBlock false)).flatten := by
        rw [List.map_cons, List.flatten_cons]
      have hlaz : lazyUntilBoundary
          ('\n' :: '\n' :: (List.map (srtBlock false) (s2 :: rest')).flatten) =
          ([], '\n' :: '\n' :: (List.map (srtBlock false) (s2 :: rest')).flatten) := by
        rw [hFL, lazyUntilBoundary, blockBoundary_nextBlock s2 _ g1 g2 g3]
        simp
      rw [hlaz] at hmatch
      have hlen2 := srtBlock_length s2
      have hFLlen : 3 ≤ ((List.map (srtBlock false) (s2 :: rest')).flatten).length := by
        rw [hFL]
        simp only [List.length_append]
        omega
      obtain ⟨f, rfl⟩ : ∃ f, fuel = f + 3 := ⟨fuel - 3, by
        simp only [List.length_append] at hfuel
        omega⟩
      have hfrest : ((List.map (srtBlock false) (s2 :: rest')).flatten).length ≤ f := by
        simp only [List.length_append] at hfuel
        omega
      rw [show f + 3 = (f + 2) + 1 from rfl,
        scanBlocks_cons_matched hBne hmatch,
        show f + 2 = (f + 1) + 1 from rfl,
        scanBlocks_cons_skip (matchBlockAt_nondigit (by decide)),
        scanBlocks_cons_skip (matchBlockAt_nondigit (by decide))]
      have hihr := ih hrest f hfrest
      rw [List.mapM_cons, hihr, blockToSegment]
      simp only [hid12, hid34, List.append_nil]
      rw [h8]
      simp only [digitsToNat_intToDigits (by omega : (0:Int) ≤ s.id)]
      rfl

/-- C5 counterexample: a single segment with trailing whitespace in its text
(non-empty list, unique ascending positive id, `0 ≤ start ≤ end`) does not
round trip — the parser strips the text group, so `"hello "` comes back as
`"hello"`. -/
theorem C5_counterexample :
    parse_srt_file (save_subtitles_to_file
        [{ id := 1, start_ms := 0, end_ms := 1000, text := "hello ".toList,
           translated_text := none }] "srt".toList false) ≠
      some [{ id := 1, start_ms := 0, end_ms := 1000, text := "hello ".toList,
              translated_text := none }] := by
  decide

/-- C5 (amended): serializing to SRT with `useTranslated = false` and parsing
the result yields exactly the original segments (with `translated_text`
cleared) for every non-empty list with unique ascending positive ids whose
times lie in `[0, 360000000)` with `start ≤ end` and whose texts are
non-empty, newline-free and strip-stable (`pyStrip text = text`).  The strip
condition is forced by the counterexample; the time bound and newline/blank
freedom are forced by analogous failures (3-digit hours do not match the
2-digit timestamp group; blank or digit-only lines inside a text collide with
the block lookahead). -/
theorem C5_srt_roundtrip (segs : List SubtitleSegment) (_hne : segs ≠ [])
    (_hasc : List.Chain' (fun a b => a.id < b.id) segs)
    (_hse : ∀ s ∈ segs, s.start_ms ≤ s.end_ms)
    (hok : ∀ s ∈ segs, SegOK s) :
    parse_srt_file (save_subtitles_to_file segs "srt".toList false) =
      some (segs.map fun s => { s with translated_text := none }) := by
  rw [save_subtitles_to_file, if_pos (by decide), parse_srt_file]
  exact scan_parse_blocks segs hok _ le_rfl

/-- A concrete two-segment fixture for the round-trip witness. -/
def roundtripPair : List SubtitleSegment :=
  [{ id := 1, start_ms := 0, end_ms := 1500, text := "hi".toList, translated_text := none },
   { id := 2, start_ms := 2000, end_ms := 2500, text := "there".toList,
     translated_text := none }]

theorem C5_witness :
    parse_srt_file (save_subtitles_to_file roundtripPair "srt".toList false) =
      some (roundtripPair.map fun s => { s with translated_text := none }) :=
  C5_srt_roundtrip roundtripPair (by decide)
    (by rw [roundtripPair, List.chain'_cons]
        exact ⟨by decide, List.chain'_singleton _⟩)
    (by decide) (by decide)

end KRVid
